import Mathlib

/-!
Verification of the chess-zobrist FEN Zobrist hasher (src/index.ts, class
ChessHasher) against its natural-language specification.

The TypeScript source is embedded shallowly:

- a JS number appearing in a hash byte array is either an actual natural
  number or NaN; we model it as an optional natural number, none meaning NaN
  (ToInt32 sends NaN to 0, which is what the XOR operator uses);
- a Hash (type Hash = number[]) is a list of such bytes;
- the constant table (imported from ./hashes, a file that is not part of
  src/ -- the spec describes it as external data: 781 entries, each a
  16-character hexadecimal string) is a parameter of every function; an
  out-of-range table access yields JS undefined and the subsequent
  property access inside parseHexString throws, which we model by
  propagating none (no result) through the whole call;
- the mutable instance fields error, enPasRank, enPasFile, pawnNearby are
  threaded as an explicit ParseState record; hashPosition resets all four
  at entry (source lines 296-299), which the model reflects by starting
  every call from the reset state.
-/

namespace ChessZobrist

/-- JS number occurring in a hash byte array: some n for an actual
natural value, none for NaN. -/
abbrev JSNum := Option Nat

/-- Hash = number[] from the source: a list of JS byte values. -/
abbrev Hash := List JSNum

/-- Value of one hexadecimal digit character, none if the character is not
a hexadecimal digit (digits 0-9, letters a-f and A-F). -/
def hexDigitVal (c : Char) : Option Nat :=
  match c with
  | '9' => some 9 | '8' => some 8 | '7' => some 7 | '6' => some 6
  | '5' => some 5 | '4' => some 4 | '3' => some 3 | '2' => some 2
  | '1' => some 1 | '0' => some 0
  | 'f' => some 15 | 'e' => some 14 | 'd' => some 13
  | 'c' => some 12 | 'b' => some 11 | 'a' => some 10
  | 'F' => some 15 | 'E' => some 14 | 'D' => some 13
  | 'C' => some 12 | 'B' => some 11 | 'A' => some 10
  | _ => none

/-- Embeds the JS expression parseInt(s, 16) for a two-character string s:
JS strips a 0x or 0X radix marker (leaving no digits, hence NaN), then
parses the longest leading run of hexadecimal digits, NaN if that run is
empty.  The source only ever applies this to chunks of constant-table
entries, which the spec fixes to be plain hexadecimal digit pairs. -/
def parseInt16 (c1 c2 : Char) : JSNum :=
  if c1 = '0' ∧ (c2 = 'x' ∨ c2 = 'X') then none
  else
    match hexDigitVal c1, hexDigitVal c2 with
    | some a, some b => some (16 * a + b)
    | some a, none => some a
    | none, _ => none

/-- ChessHasher.parseHexString: consumes the string two characters at a
time while at least two characters remain, converting each pair with
parseInt(pair, 16); a trailing odd character is dropped. -/
def parseHexString : List Char → Hash
  | c1 :: c2 :: rest => parseInt16 c1 c2 :: parseHexString rest
  | _ => []

/-- Bitwise XOR of two JS byte values as performed by the ^ operator:
ToInt32 maps NaN to 0 and is the identity on the byte values that occur;
the result is always an actual number. -/
def jsXor (a b : JSNum) : JSNum :=
  some ((a.getD 0) ^^^ (b.getD 0))

/-- ChessHasher.xorArrays: elementwise XOR, truncating to the shorter
input (Array.from with length = min of the two lengths). -/
def xorArrays (a b : Hash) : Hash :=
  List.zipWith jsXor a b

/-- JS array read table[num] for an integer index: undefined (here none)
when the index is negative or at least the length. -/
def tableGet (table : List (List Char)) (num : Int) : Option (List Char) :=
  if num < 0 then none else table.get? num.toNat

/-- ChessHasher.xorHash: XOR the accumulator with the parsed table entry
at the given index.  When the index is out of range the table read gives
undefined and parseHexString throws on undefined.length; the model
returns none for that uncaught exception. -/
def xorHash (table : List (List Char)) (arr : Hash) (num : Int) : Option Hash :=
  (tableGet table num).map (fun entry => xorArrays arr (parseHexString entry))

/-- Left pad with the character 0 to length two, as in padStart(2, "0"). -/
def padTwo (s : List Char) : List Char :=
  if s.length < 2 then List.replicate (2 - s.length) '0' ++ s else s

/-- One byte rendered by byte.toString(16).padStart(2, "0"): lowercase
hexadecimal digits; NaN renders as the string NaN. -/
def byteToHex (b : JSNum) : List Char :=
  match b with
  | none => ['N', 'a', 'N']
  | some n => padTwo (Nat.toDigits 16 n)

/-- ChessHasher.createHexString: map each byte to its padded hexadecimal
rendering and concatenate. -/
def createHexString (arr : Hash) : List Char :=
  arr.flatMap byteToHex

/-- The per-call mutable instance fields of ChessHasher. -/
structure ParseState where
  error : Bool
  enPasRank : Int
  enPasFile : Int
  pawnNearby : Bool
deriving DecidableEq, Repr

/-- Field values installed by the first four statements of hashPosition. -/
def resetState : ParseState :=
  { error := false, enPasRank := -1, enPasFile := -1, pawnNearby := false }

/-- ChessHasher.parseEnPassant: empty or dash leaves the state unchanged;
any other string must have exactly two characters encoding file a-h and
rank 1-8, otherwise the error flag is set. -/
def parseEnPassant (st : ParseState) (s : List Char) : ParseState :=
  if s = [] ∨ s = ['-'] then st
  else
    match s with
    | [c0, c1] =>
      let f : Int := (c0.toNat : Int) - 97
      let r : Int := (c1.toNat : Int) - 49
      if f < 0 ∨ 7 < f ∨ r < 0 ∨ 7 < r then { st with error := true }
      else { st with enPasFile := f, enPasRank := r }
    | _ => { st with error := true }

/-- ChessHasher.hashSide: XOR constant 780 when the side string is w,
otherwise return the accumulator unchanged. -/
def hashSide (table : List (List Char)) (arr : Hash) (s : List Char) : Option Hash :=
  if s = ['w'] then xorHash table arr 780 else some arr

/-- ChessHasher.hashCastling: dash is a no-op; otherwise each of K, Q, k,
q contained in the string XORs its constant (768 to 771), each tested
independently by containment. -/
def hashCastling (table : List (List Char)) (arr : Hash) (s : List Char) : Option Hash :=
  if s = ['-'] then some arr
  else do
    let a1 ← if s.contains 'K' then xorHash table arr 768 else some arr
    let a2 ← if s.contains 'Q' then xorHash table a1 769 else some a1
    let a3 ← if s.contains 'k' then xorHash table a2 770 else some a2
    if s.contains 'q' then xorHash table a3 771 else some a3

/-- Classification of one board character by the switch statement in
hashPieces: a piece with its kind index, an empty-square digit with its
numeric value, or an unrecognized character. -/
inductive CharClass where
  | piece (k : Nat)
  | digit (d : Nat)
  | bad
deriving DecidableEq

/-- The switch cases of hashPieces in source order: the twelve piece
letters with the kind index used in the XOR index 64 * k + 8 * rank + file,
the digit cases 0 to 8 advancing the file counter by charCode - 48, and
the default case. -/
def charClass (c : Char) : CharClass :=
  match c with
  | 'p' => .piece 0
  | 'P' => .piece 1
  | 'n' => .piece 2
  | 'N' => .piece 3
  | 'b' => .piece 4
  | 'B' => .piece 5
  | 'r' => .piece 6
  | 'R' => .piece 7
  | 'q' => .piece 8
  | 'Q' => .piece 9
  | 'k' => .piece 10
  | 'K' => .piece 11
  | '0' => .digit 0
  | '1' => .digit 1
  | '2' => .digit 2
  | '3' => .digit 3
  | '4' => .digit 4
  | '5' => .digit 5
  | '6' => .digit 6
  | '7' => .digit 7
  | '8' => .digit 8
  | _ => .bad

/-- The two en-passant adjacency conditionals executed after placing a
black pawn (case p: declared rank 2, board rank 3) or a white pawn
(case P: declared rank 5, board rank 4); each sets pawnNearby when the
pawn file sits directly beside the declared en-passant file. -/
def epUpdate (st : ParseState) (c : Char) (rank : Nat) (file : Nat) : ParseState :=
  if c = 'p' then
    let st1 :=
      if st.enPasRank = 2 ∧ rank = 3 ∧ 0 < st.enPasFile ∧ (file : Int) = st.enPasFile - 1 then
        { st with pawnNearby := true }
      else st
    if st1.enPasRank = 2 ∧ rank = 3 ∧ st1.enPasFile < 7 ∧ (file : Int) = st1.enPasFile + 1 then
      { st1 with pawnNearby := true }
    else st1
  else if c = 'P' then
    let st1 :=
      if st.enPasRank = 5 ∧ rank = 4 ∧ 0 < st.enPasFile ∧ (file : Int) = st.enPasFile - 1 then
        { st with pawnNearby := true }
      else st
    if st1.enPasRank = 5 ∧ rank = 4 ∧ st1.enPasFile < 7 ∧ (file : Int) = st1.enPasFile + 1 then
      { st1 with pawnNearby := true }
    else st1
  else st

/-- Outcome of scanning the characters of one rank: abort models the
early return from hashPieces on an unrecognized character, done carries
the final file counter for the rank sum check. -/
inductive RankRes where
  | abort (st : ParseState) (arr : Hash)
  | done (st : ParseState) (arr : Hash) (file : Nat)
deriving DecidableEq

/-- Inner loop of hashPieces over the characters of the rank with board
rank number rank and running file counter: a piece XORs constant
64 * k + 8 * rank + file, runs the pawn adjacency checks and advances the
file by one; a digit advances the file by its value; any other character
sets the error flag and aborts; none models the uncaught exception from
an out-of-range table index. -/
def hashRankChars (table : List (List Char)) (rank : Nat) (st : ParseState) (arr : Hash)
    (file : Nat) : List Char → Option RankRes
  | [] => some (.done st arr file)
  | c :: cs =>
    match charClass c with
    | .piece k =>
      match xorHash table arr (((64 * k + 8 * rank + file : Nat) : Int)) with
      | none => none
      | some arr2 => hashRankChars table rank (epUpdate st c rank file) arr2 (file + 1) cs
    | .digit d => hashRankChars table rank st arr (file + d) cs
    | .bad => some (.abort { st with error := true } arr)

/-- Outer loop of hashPieces over the list of ranks, i being the loop
index so that the board rank number is 7 - i; after a completed rank the
file counter must be exactly 8, otherwise the error flag is set and the
scan continues; an abort from the inner loop returns immediately. -/
def hashRanks (table : List (List Char)) (i : Nat) (st : ParseState) (arr : Hash) :
    List (List Char) → Option (ParseState × Hash)
  | [] => some (st, arr)
  | r :: rs =>
    match hashRankChars table (7 - i) st arr 0 r with
    | none => none
    | some (.abort st2 arr2) => some (st2, arr2)
    | some (.done st2 arr2 file) =>
      let st3 := if file ≠ 8 then { st2 with error := true } else st2
      hashRanks table (i + 1) st3 arr2 rs

/-- Splits a list at every occurrence of the separator, like the JS
split method with a single-character separator string. -/
def splitOnChar (sep : Char) : List Char → List (List Char)
  | [] => [[]]
  | c :: cs =>
    match splitOnChar sep cs with
    | [] => [[]]
    | g :: gs => if c = sep then [] :: g :: gs else (c :: g) :: gs

/-- ChessHasher.hashPieces: split the placement on slashes, require
exactly 8 ranks (otherwise set the error flag and return the accumulator
unchanged), then run the rank loop. -/
def hashPieces (table : List (List Char)) (st : ParseState) (arr : Hash)
    (s : List Char) : Option (ParseState × Hash) :=
  let ranks := splitOnChar '/' s
  if ranks.length ≠ 8 then some ({ st with error := true }, arr)
  else hashRanks table 0 st arr ranks

/-- ChessHasher.emptyHash: eight zero bytes. -/
def emptyHash : Hash :=
  parseHexString ("0000000000000000".data)

/-- Character class of the FEN board field in the validation regular
expression: piece letters and the digits 1 to 8. -/
def boardChar (c : Char) : Bool :=
  c ∈ ['r', 'n', 'b', 'q', 'k', 'p', 'R', 'N', 'B', 'Q', 'K', 'P',
       '1', '2', '3', '4', '5', '6', '7', '8']

/-- Matching of the board part of the validation pattern, seven groups of
one or more board characters each followed by a slash and then one final
such group: since the slash is not a board character this holds exactly
when splitting on slashes yields eight nonempty groups of board
characters. -/
def boardOk (s : List Char) : Bool :=
  let rs := splitOnChar '/' s
  rs.length = 8 && rs.all (fun r => !r.isEmpty && r.all boardChar)

/-- Character class of the castling field in the validation pattern. -/
def castlingChar (c : Char) : Bool :=
  c ∈ ['K', 'Q', 'k', 'q', '-']

/-- Castling field of the validation pattern: one to four characters
drawn from K, Q, k, q and dash. -/
def castlingOk (s : List Char) : Bool :=
  1 ≤ s.length && s.length ≤ 4 && s.all castlingChar

/-- Character class of the en-passant field in the validation pattern. -/
def epChar (c : Char) : Bool :=
  c ∈ ['a', 'b', 'c', 'd', 'e', 'f', 'g', 'h',
       '1', '2', '3', '4', '5', '6', '7', '8', '-']

/-- En-passant field of the validation pattern: one or two characters
drawn from the letters a to h, the digits 1 to 8 and dash. -/
def epOk (s : List Char) : Bool :=
  1 ≤ s.length && s.length ≤ 2 && s.all epChar

/-- Character class of a decimal digit in the validation pattern. -/
def decDigit (c : Char) : Bool :=
  c ∈ ['0', '1', '2', '3', '4', '5', '6', '7', '8', '9']

/-- Clock field of the validation pattern: one or more decimal digits. -/
def digitsOk (s : List Char) : Bool :=
  !s.isEmpty && s.all decDigit

/-- The anchored validation regular expression of hashPosition.  None of
the six field classes contains the space character and the fields are
joined by single literal spaces, so the pattern matches exactly when
splitting the string on spaces yields six parts with the board part, a
single w or b, the castling part, the en-passant part and two digit
runs. -/
def validFenPattern (s : List Char) : Bool :=
  match splitOnChar ' ' s with
  | [p, c, ca, ep, h, m] =>
    boardOk p && (c = ['w'] ∨ c = ['b']) && castlingOk ca && epOk ep &&
      digitsOk h && digitsOk m
  | _ => false

/-- JS String.prototype.trim: remove whitespace from both ends.  Every
string that passes the validation pattern begins with a board character
and ends with a digit, so on the strings the source trims this agrees
with the JS whitespace set. -/
def trim (s : List Char) : List Char :=
  ((s.dropWhile Char.isWhitespace).reverse.dropWhile Char.isWhitespace).reverse

/-- The invalid-position sentinel string returned by hashPosition. -/
def wrongPosition : List Char :=
  "Wrong position".data

/-- Body of ChessHasher.hashPosition after the four field resets,
returning the final instance state alongside the result; none models the
uncaught exception raised on an out-of-range constant-table read.  The
stages in source order: regular-expression validation, field split of
the trimmed input with a falsiness check on the first four fields,
parseEnPassant, hashPieces, the conditional en-passant XOR at index
772 + enPasFile, hashSide, hashCastling, and the final choice between
the sentinel and the hexadecimal rendering. -/
def hashPositionCore (table : List (List Char)) (fen : List Char) :
    Option (List Char × ParseState) :=
  let st0 := resetState
  if !validFenPattern fen then some (wrongPosition, st0)
  else
    match splitOnChar ' ' (trim fen) with
    | pieces :: color :: castling :: enPassant :: _ =>
      if pieces.isEmpty || color.isEmpty || castling.isEmpty || enPassant.isEmpty then
        some (wrongPosition, { st0 with error := true })
      else
        let st1 := parseEnPassant st0 enPassant
        match hashPieces table st1 emptyHash pieces with
        | none => none
        | some (st2, h1) =>
          match (if st2.pawnNearby then xorHash table h1 (772 + st2.enPasFile) else some h1) with
          | none => none
          | some h2 =>
            match hashSide table h2 color with
            | none => none
            | some h3 =>
              match hashCastling table h3 castling with
              | none => none
              | some h4 =>
                some ((if st2.error then wrongPosition else createHexString h4), st2)
    | _ => some (wrongPosition, { st0 with error := true })

/-- ChessHasher.hashPosition as observed by the caller: the returned
string, none when the call throws. -/
def hashPosition (table : List (List Char)) (fen : List Char) : Option (List Char) :=
  (hashPositionCore table fen).map (fun x => x.1)

/-- A call on a live ChessHasher instance whose fields currently hold st:
the first four statements of hashPosition overwrite all four fields with
the reset values, so the incoming state is never read; the pair returned
is the call result and the fields left behind for the next call (on the
uncaught-exception path the next call resets them before reading, so the
reset state stands in for the partially written fields). -/
def instanceCall (table : List (List Char)) (_st : ParseState) (fen : List Char) :
    Option (List Char) × ParseState :=
  match hashPositionCore table fen with
  | some (r, st2) => (some r, st2)
  | none => (none, resetState)

/-- Results of a sequence of calls on one shared ChessHasher instance,
threading the instance fields from call to call. -/
def runCalls (table : List (List Char)) (st : ParseState) :
    List (List Char) → List (Option (List Char))
  | [] => []
  | f :: fs =>
    let out := instanceCall table st f
    out.1 :: runCalls table out.2 fs

/-!
Claim-side definitions: the indexing scheme and the adjacency notion as
the specification words them, to be compared with the embedded source.
-/

/-- Piece kind index in the fixed order stated by the specification:
black-pawn 0, white-pawn 1, black-knight 2, white-knight 3, black-bishop
4, white-bishop 5, black-rook 6, white-rook 7, black-queen 8, white-queen
9, black-king 10, white-king 11. -/
def pieceKindIndex (c : Char) : Option Nat :=
  match c with
  | 'p' => some 0 | 'P' => some 1
  | 'n' => some 2 | 'N' => some 3
  | 'b' => some 4 | 'B' => some 5
  | 'r' => some 6 | 'R' => some 7
  | 'q' => some 8 | 'Q' => some 9
  | 'k' => some 10 | 'K' => some 11
  | _ => none

/-- Value of an empty-square digit 1 to 8 as the specification reads it. -/
def emptyDigitVal (c : Char) : Option Nat :=
  match c with
  | '8' => some 8 | '7' => some 7 | '6' => some 6 | '5' => some 5
  | '4' => some 4 | '3' => some 3 | '2' => some 2 | '1' => some 1
  | _ => none

/-- Squares generated by one FEN rank group written at row index i
(0 = top row as written): a piece letter occupies board rank 7 - i at the
current file counter and advances the counter by one, a digit advances
the counter by its value; the enumeration stops at any other character
(the claims only concern accepted FEN strings). -/
def rowSquares (i : Nat) (file : Nat) : List Char → List (Char × Nat × Nat)
  | [] => []
  | c :: cs =>
    match pieceKindIndex c with
    | some _ => (c, 7 - i, file) :: rowSquares i (file + 1) cs
    | none =>
      match emptyDigitVal c with
      | some d => rowSquares i (file + d) cs
      | none => []

/-- Squares of a list of rank groups starting at row index i. -/
def ranksSquares (i : Nat) : List (List Char) → List (Char × Nat × Nat)
  | [] => []
  | r :: rs => rowSquares i 0 r ++ ranksSquares (i + 1) rs

/-- Squares of a whole placement field, rows taken top to bottom. -/
def fenSquares (p : List Char) : List (Char × Nat × Nat) :=
  ranksSquares 0 (splitOnChar '/' p)

/-- Constant-table index of a square per the specification formula
pieceKindIndex * 64 + rank * 8 + file. -/
def squareIndex (s : Char × Nat × Nat) : Nat :=
  (pieceKindIndex s.1).getD 0 * 64 + s.2.1 * 8 + s.2.2

/-- Table indices contributed by the placement field in scan order. -/
def claimIndices (p : List Char) : List Nat :=
  (fenSquares p).map squareIndex

/-- Sequential XOR of a list of constant-table indices into an
accumulator, none as soon as one index is out of range. -/
def xorFold (table : List (List Char)) (arr : Hash) : List Nat → Option Hash
  | [] => some arr
  | n :: ns =>
    match xorHash table arr ((n : Nat) : Int) with
    | none => none
    | some a => xorFold table a ns

/-- The adjacency condition the pawn conditionals of hashPieces test for
one placed pawn: a black pawn on board rank 3 beside a declared rank-2
target file, or a white pawn on board rank 4 beside a declared rank-5
target file. -/
def pawnAdjAt (c : Char) (rank file : Nat) (epR epF : Int) : Bool :=
  (c = 'p' && epR = 2 && rank = 3 &&
    ((0 < epF && (file : Int) = epF - 1) || (epF < 7 && (file : Int) = epF + 1))) ||
  (c = 'P' && epR = 5 && rank = 4 &&
    ((0 < epF && (file : Int) = epF - 1) || (epF < 7 && (file : Int) = epF + 1)))

/-- Existence of an adjacent capturing pawn among the squares of a
placement field, for a declared en-passant rank and file. -/
def epAdjacent (p : List Char) (epR epF : Int) : Bool :=
  (fenSquares p).any (fun s => pawnAdjAt s.1 s.2.1 s.2.2 epR epF)

/-!
Proof-side pure reformulation of the two hashPieces loops.  The scan of
one rank touches the parse state only through the constant en-passant
coordinates and the two write-only flags, so it factors into a pure
accumulator scan plus a pure adjacency scan; the factorisation is proved
equal to the embedded loops below and never replaces them in a claim.
-/

/-- Accumulator part of the scan of one rank: returns the abort flag, the
hash and the final file counter; none on an out-of-range table read. -/
def rowPure (table : List (List Char)) (rank : Nat) (file : Nat) (arr : Hash) :
    List Char → Option (Bool × Hash × Nat)
  | [] => some (false, arr, file)
  | c :: cs =>
    match charClass c with
    | .piece k =>
      match xorHash table arr (((64 * k + 8 * rank + file : Nat) : Int)) with
      | none => none
      | some arr2 => rowPure table rank (file + 1) arr2 cs
    | .digit d => rowPure table rank (file + d) arr cs
    | .bad => some (true, arr, file)

/-- Adjacency part of the scan of one rank: whether some pawn placed
before the first unrecognized character triggers the en-passant
conditionals. -/
def rowAdj (rank : Nat) (epR epF : Int) (file : Nat) : List Char → Bool
  | [] => false
  | c :: cs =>
    match charClass c with
    | .piece _ => pawnAdjAt c rank file epR epF || rowAdj rank epR epF (file + 1) cs
    | .digit d => rowAdj rank epR epF (file + d) cs
    | .bad => false

/-- Whether a rank contains an unrecognized character. -/
def rowHasBad (r : List Char) : Bool :=
  r.any (fun c => charClass c = CharClass.bad)

/-- Accumulator part of the rank loop: the hash, the error contribution
of the scan and whether the loop stopped on an unrecognized character. -/
def ranksPure (table : List (List Char)) (i : Nat) (arr : Hash) :
    List (List Char) → Option (Hash × Bool × Bool)
  | [] => some (arr, false, false)
  | r :: rs =>
    match rowPure table (7 - i) 0 arr r with
    | none => none
    | some (true, a, _) => some (a, true, true)
    | some (false, a, f) =>
      match ranksPure table (i + 1) a rs with
      | none => none
      | some (a2, e2, ab2) => some (a2, (decide (f ≠ 8)) || e2, ab2)

/-- Adjacency part of the rank loop, stopping where the scan stops. -/
def ranksAdj (i : Nat) (epR epF : Int) : List (List Char) → Bool
  | [] => false
  | r :: rs =>
    rowAdj (7 - i) epR epF 0 r || (!rowHasBad r && ranksAdj (i + 1) epR epF rs)

/-- Width in files contributed by a rank group up to its first
unrecognized character. -/
def rowWidth : List Char → Nat
  | [] => 0
  | c :: cs =>
    match charClass c with
    | .piece _ => 1 + rowWidth cs
    | .digit d => d + rowWidth cs
    | .bad => 0

/-- Structural validity of a placement field beyond the syntax pattern:
eight rank groups of recognized characters, each spanning exactly eight
files. -/
def placementOk (p : List Char) : Bool :=
  let rs := splitOnChar '/' p
  rs.length = 8 && rs.all (fun r => r.all boardChar && rowWidth r = 8)

/-- Well-formedness of the constant table as the specification fixes it:
781 entries, each 16 hexadecimal characters. -/
def tableOk (table : List (List Char)) : Bool :=
  table.length = 781 && table.all (fun e => e.length = 16 && e.all (fun c => (hexDigitVal c).isSome))

/-- All bytes of a hash are actual values below 256. -/
def bytesOk (h : Hash) : Bool :=
  h.all (fun b => match b with | some n => decide (n < 256) | none => false)

/-- Joins rank groups with a separator, the inverse of splitOnChar on
separator-free groups. -/
def joinSep (sep : Char) : List (List Char) → List Char
  | [] => []
  | [r] => r
  | r :: rs => r ++ sep :: joinSep sep rs

/-- A six-field FEN string assembled with single spaces, the shape every
string accepted by the validation pattern has. -/
def assembleFen (p col ca ep h m : List Char) : List Char :=
  p ++ ' ' :: (col ++ ' ' :: (ca ++ ' ' :: (ep ++ ' ' :: (h ++ ' ' :: m))))

/-- The placement field of the standard starting position, used by
witnesses. -/
def startPlacement : List Char :=
  "rnbqkbnr/pppppppp/8/8/8/8/PPPPPPPP/RNBQKBNR".data

/-- A concrete well-formed constant table used by witnesses: 781 equal
entries of 16 hexadecimal characters. -/
def demoTable : List (List Char) :=
  List.replicate 781 ("0123456789abcdef".data)

/-- Rank groups of a position with a black pawn on d4 beside the
en-passant target e3, used by witnesses. -/
def c3Rows : List (List Char) :=
  splitOnChar '/' ("rnbqkbnr/ppp1pppp/8/8/3pP3/8/PPPP1PPP/RNBQKBNR".data)

/-- Rank groups of a position with a white pawn on d5 beside the
en-passant target e6, used by witnesses and counterexamples. -/
def c8Rows : List (List Char) :=
  splitOnChar '/' ("rnbqkbnr/pppp1ppp/8/3Pp3/8/8/PPP1PPPP/RNBQKBNR".data)

/-!
Factorisation of the hashPieces loops into the pure scans.
-/

theorem epUpdate_eq (st : ParseState) (c : Char) (rank file : Nat) :
    epUpdate st c rank file =
      { st with pawnNearby := st.pawnNearby || pawnAdjAt c rank file st.enPasRank st.enPasFile } := by
  rcases st with ⟨e, er, ef, pn⟩
  by_cases hp : c = 'p' <;> by_cases hP : c = 'P'
  · exact absurd (hp ▸ hP) (by simp [hp])
  · subst hp
    by_cases h1 : er = (2 : Int) <;> by_cases h2 : rank = 3 <;>
      by_cases h3 : (0 : Int) < ef <;> by_cases h4 : (file : Int) = ef - 1 <;>
      by_cases h5 : ef < (7 : Int) <;> by_cases h6 : (file : Int) = ef + 1 <;>
      simp_all [epUpdate, pawnAdjAt] <;> split_ifs <;> simp_all <;> omega
  · subst hP
    by_cases h1 : er = (5 : Int) <;> by_cases h2 : rank = 4 <;>
      by_cases h3 : (0 : Int) < ef <;> by_cases h4 : (file : Int) = ef - 1 <;>
      by_cases h5 : ef < (7 : Int) <;> by_cases h6 : (file : Int) = ef + 1 <;>
      simp_all [epUpdate, pawnAdjAt] <;> split_ifs <;> simp_all <;> omega
  · simp [epUpdate, pawnAdjAt, hp, hP]

theorem rowPure_hasBad (table : List (List Char)) (rank : Nat) (file : Nat) (arr : Hash)
    (cs : List Char) (ab : Bool) (a : Hash) (f : Nat)
    (h : rowPure table rank file arr cs = some (ab, a, f)) : ab = rowHasBad cs := by
  induction cs generalizing file arr with
  | nil =>
    simp [rowPure] at h
    simp [rowHasBad, h.1.symm]
  | cons c cs ih =>
    cases hcc : charClass c with
    | piece k =>
      simp only [rowPure, hcc] at h
      cases hx : xorHash table arr (((64 * k + 8 * rank + file : Nat) : Int)) with
      | none => rw [hx] at h; simp at h
      | some arr2 =>
        rw [hx] at h
        simp only [rowHasBad, List.any_cons, hcc]
        have := ih (file + 1) arr2 h
        simpa [rowHasBad] using this
    | digit d =>
      simp only [rowPure, hcc] at h
      simp only [rowHasBad, List.any_cons, hcc]
      have := ih (file + d) arr h
      simpa [rowHasBad] using this
    | bad =>
      simp only [rowPure, hcc] at h
      simp at h
      simp [rowHasBad, List.any_cons, hcc, h.1.symm]

theorem hashRankChars_eq (table : List (List Char)) (rank : Nat) (st : ParseState)
    (arr : Hash) (file : Nat) (cs : List Char) :
    hashRankChars table rank st arr file cs =
      (rowPure table rank file arr cs).map (fun x =>
        match x with
        | (true, a, _) => RankRes.abort
            { st with
                error := true
                pawnNearby := st.pawnNearby || rowAdj rank st.enPasRank st.enPasFile file cs } a
        | (false, a, f) => RankRes.done
            { st with pawnNearby := st.pawnNearby || rowAdj rank st.enPasRank st.enPasFile file cs } a f) := by
  induction cs generalizing st arr file with
  | nil => simp [hashRankChars, rowPure, rowAdj]
  | cons c cs ih =>
    cases hcc : charClass c with
    | piece k =>
      simp only [hashRankChars, rowPure, rowAdj, hcc]
      cases hx : xorHash table arr (((64 * k + 8 * rank + file : Nat) : Int)) with
      | none => simp
      | some arr2 =>
        dsimp only
        rw [ih, epUpdate_eq]
        cases hrp : rowPure table rank (file + 1) arr2 cs with
        | none => simp
        | some x =>
          obtain ⟨ab, a, f⟩ := x
          cases ab <;> simp [Bool.or_assoc]
    | digit d =>
      simp only [hashRankChars, rowPure, rowAdj, hcc]
      rw [ih]
    | bad => simp [hashRankChars, rowPure, rowAdj, hcc]

theorem hashRanks_eq (table : List (List Char)) (i : Nat) (st : ParseState) (arr : Hash)
    (rs : List (List Char)) :
    hashRanks table i st arr rs =
      (ranksPure table i arr rs).map (fun x =>
        ({ st with
             error := st.error || x.2.1
             pawnNearby := st.pawnNearby || ranksAdj i st.enPasRank st.enPasFile rs }, x.1)) := by
  induction rs generalizing i st arr with
  | nil => simp [hashRanks, ranksPure, ranksAdj]
  | cons r rs ih =>
    simp only [hashRanks, ranksPure, ranksAdj]
    rw [hashRankChars_eq]
    cases hr : rowPure table (7 - i) 0 arr r with
    | none => simp
    | some x =>
      obtain ⟨ab, a, f⟩ := x
      cases ab with
      | true =>
        have hb : rowHasBad r = true := (rowPure_hasBad table (7 - i) 0 arr r true a f hr).symm
        simp only [Option.map_some']
        simp [hb]
      | false =>
        have hb : rowHasBad r = false := (rowPure_hasBad table (7 - i) 0 arr r false a f hr).symm
        simp only [Option.map_some']
        rw [ih]
        cases hrp : ranksPure table (i + 1) a rs with
        | none => simp
        | some y =>
          obtain ⟨a2, e2, ab2⟩ := y
          by_cases hf : f = 8 <;>
            simp [hf, hb, Bool.or_assoc]

/-!
Classification facts about characters and table entries.
-/

theorem hexDigitVal_lt (c : Char) (a : Nat) (h : hexDigitVal c = some a) : a < 16 := by
  revert h
  unfold hexDigitVal
  split <;> intro h <;> (try simp_all) <;> omega

theorem charClass_piece_le (c : Char) (k : Nat) (h : charClass c = CharClass.piece k) :
    k ≤ 11 := by
  revert h
  unfold charClass
  split <;> intro h <;> (try simp_all) <;> omega

theorem boardChar_cases (c : Char) (h : boardChar c = true) :
    (∃ k, k ≤ 11 ∧ charClass c = CharClass.piece k ∧ pieceKindIndex c = some k) ∨
      (∃ d, 1 ≤ d ∧ d ≤ 8 ∧ charClass c = CharClass.digit d ∧ emptyDigitVal c = some d) := by
  have hm : c ∈ ['r', 'n', 'b', 'q', 'k', 'p', 'R', 'N', 'B', 'Q', 'K', 'P',
      '1', '2', '3', '4', '5', '6', '7', '8'] := by
    simpa [boardChar] using h
  fin_cases hm <;> simp [charClass, pieceKindIndex, emptyDigitVal]

theorem boardChar_not_bad (c : Char) (h : boardChar c = true) :
    charClass c ≠ CharClass.bad := by
  rcases boardChar_cases c h with ⟨k, -, hk, -⟩ | ⟨d, -, -, hd, -⟩
  · simp [hk]
  · simp [hd]

theorem rowHasBad_false (r : List Char) (h : ∀ c ∈ r, boardChar c = true) :
    rowHasBad r = false := by
  unfold rowHasBad
  rw [List.any_eq_false]
  intro c hc
  simpa using boardChar_not_bad c (h c hc)

theorem parseHex_entry (e : List Char) (h16 : e.length = 16)
    (hhex : ∀ c ∈ e, (hexDigitVal c).isSome) :
    (parseHexString e).length = 8 ∧ bytesOk (parseHexString e) = true := by
  have main : ∀ n (l : List Char), l.length = 2 * n → (∀ c ∈ l, (hexDigitVal c).isSome) →
      (parseHexString l).length = n ∧ bytesOk (parseHexString l) = true := by
    intro n
    induction n with
    | zero =>
      intro l hl _
      have : l = [] := List.length_eq_zero.mp (by omega)
      subst this
      simp [parseHexString, bytesOk]
    | succ n ih =>
      intro l hl hx
      match l with
      | [] => simp at hl
      | [c] => simp at hl; omega
      | c1 :: c2 :: rest =>
        have h1 : (hexDigitVal c1).isSome := hx c1 (by simp)
        have h2 : (hexDigitVal c2).isSome := hx c2 (by simp)
        obtain ⟨a, ha⟩ := Option.isSome_iff_exists.mp h1
        obtain ⟨b, hb⟩ := Option.isSome_iff_exists.mp h2
        have hrl : rest.length = 2 * n := by
          simp only [List.length_cons] at hl
          omega
        have hrest := ih rest hrl (fun c hc => hx c (by simp [hc]))
        have hc2x : c2 ≠ 'x' := by rintro rfl; simp [hexDigitVal] at hb
        have hc2X : c2 ≠ 'X' := by rintro rfl; simp [hexDigitVal] at hb
        have hval : parseInt16 c1 c2 = some (16 * a + b) := by
          unfold parseInt16
          rw [if_neg (by tauto), ha, hb]
        have hlt : 16 * a + b < 256 := by
          have := hexDigitVal_lt c1 a ha
          have := hexDigitVal_lt c2 b hb
          omega
        refine ⟨?_, ?_⟩
        · simp [parseHexString, hval, hrest.1]
        · simp only [parseHexString, bytesOk, List.all_cons, hval, Bool.and_eq_true]
          refine ⟨by simpa using hlt, by simpa [bytesOk] using hrest.2⟩
  exact main 8 e (by omega) hhex

theorem tableOk_entry (table : List (List Char)) (ht : tableOk table = true)
    (e : List Char) (he : e ∈ table) :
    e.length = 16 ∧ ∀ c ∈ e, (hexDigitVal c).isSome := by
  unfold tableOk at ht
  simp only [Bool.and_eq_true, List.all_eq_true, decide_eq_true_eq] at ht
  obtain ⟨-, hall⟩ := ht
  have := hall e he
  exact ⟨this.1, fun c hc => this.2 c hc⟩

theorem xorArrays_ok (a b : Hash) (ha : bytesOk a = true) (hb : bytesOk b = true) :
    bytesOk (xorArrays a b) = true ∧ (xorArrays a b).length = min a.length b.length := by
  constructor
  · induction a generalizing b with
    | nil => simp [xorArrays, bytesOk]
    | cons x xs ih =>
      match b with
      | [] => simp [xorArrays, bytesOk]
      | y :: ys =>
        simp only [bytesOk, List.all_cons, Bool.and_eq_true] at ha hb
        have hx : ∃ n, x = some n ∧ n < 256 := by
          cases x with
          | none => simp at ha
          | some n => exact ⟨n, rfl, by simpa using ha.1⟩
        have hy : ∃ n, y = some n ∧ n < 256 := by
          cases y with
          | none => simp at hb
          | some n => exact ⟨n, rfl, by simpa using hb.1⟩
        obtain ⟨n1, rfl, hn1⟩ := hx
        obtain ⟨n2, rfl, hn2⟩ := hy
        have hxor : n1 ^^^ n2 < 256 := by
          have : (256 : Nat) = 2 ^ 8 := by norm_num
          rw [this] at hn1 hn2 ⊢
          exact Nat.xor_lt_two_pow hn1 hn2
        simp only [xorArrays, List.zipWith_cons_cons, bytesOk, List.all_cons, jsXor,
          Bool.and_eq_true]
        refine ⟨by simpa using hxor, ?_⟩
        simpa [xorArrays, bytesOk] using ih ys (by simpa [bytesOk] using ha.2)
          (by simpa [bytesOk] using hb.2)
  · simp [xorArrays]

theorem xorHash_ok (table : List (List Char)) (ht : tableOk table = true)
    (arr : Hash) (num : Int) (h0 : 0 ≤ num) (h781 : num < 781)
    (ha : bytesOk arr = true) (hlen : arr.length = 8) :
    ∃ arr2, xorHash table arr num = some arr2 ∧ bytesOk arr2 = true ∧ arr2.length = 8 := by
  have hlen781 : table.length = 781 := by
    unfold tableOk at ht
    simp only [Bool.and_eq_true, decide_eq_true_eq] at ht
    exact ht.1
  cases hq : table.get? num.toNat with
  | none =>
    have hge := List.get?_eq_none.mp hq
    omega
  | some e =>
    have hemem : e ∈ table := List.get?_mem hq
    obtain ⟨he16, hehex⟩ := tableOk_entry table ht e hemem
    obtain ⟨hplen, hpok⟩ := parseHex_entry e he16 hehex
    have htg : tableGet table num = some e := by
      unfold tableGet
      rw [if_neg (by omega)]
      exact hq
    refine ⟨xorArrays arr (parseHexString e), ?_, ?_, ?_⟩
    · simp [xorHash, htg]
    · exact (xorArrays_ok arr (parseHexString e) ha hpok).1
    · rw [(xorArrays_ok arr (parseHexString e) ha hpok).2, hlen, hplen]
      simp

/-!
Success of the scans on structurally valid placements, and the
correspondence between the scans and the claim-side square enumeration.
-/

theorem rowPure_ok (table : List (List Char)) (ht : tableOk table = true) (rank : Nat)
    (hrank : rank ≤ 7) :
    ∀ (cs : List Char) (file : Nat) (arr : Hash),
      (∀ c ∈ cs, boardChar c = true) → bytesOk arr = true → arr.length = 8 →
      file + rowWidth cs ≤ 8 →
      ∃ a2, rowPure table rank file arr cs = some (false, a2, file + rowWidth cs) ∧
        bytesOk a2 = true ∧ a2.length = 8 := by
  intro cs
  induction cs with
  | nil =>
    intro file arr _ ha hl _
    exact ⟨arr, by simp [rowPure, rowWidth], ha, hl⟩
  | cons c cs ih =>
    intro file arr hbc ha hl hw
    have hc := hbc c (by simp)
    rcases boardChar_cases c hc with ⟨k, hk11, hkc, -⟩ | ⟨d, hd1, hd8, hdc, -⟩
    · have hwc : rowWidth (c :: cs) = 1 + rowWidth cs := by
        simp [rowWidth, hkc]
      have hfile : file ≤ 7 := by rw [hwc] at hw; omega
      obtain ⟨arr2, hx, hb2, hl2⟩ := xorHash_ok table ht arr
        (((64 * k + 8 * rank + file : Nat) : Int))
        (by positivity) (by exact_mod_cast (by omega : 64 * k + 8 * rank + file < 781)) ha hl
      obtain ⟨a2, hrec, hb3, hl3⟩ := ih (file + 1) arr2
        (fun x hx2 => hbc x (by simp [hx2])) hb2 hl2 (by rw [hwc] at hw; omega)
      refine ⟨a2, ?_, hb3, hl3⟩
      simp only [rowPure, hkc, hx, hrec, hwc]
      congr 3
      omega
    · have hwc : rowWidth (c :: cs) = d + rowWidth cs := by
        simp [rowWidth, hdc]
      obtain ⟨a2, hrec, hb3, hl3⟩ := ih (file + d) arr
        (fun x hx2 => hbc x (by simp [hx2])) ha hl (by rw [hwc] at hw; omega)
      refine ⟨a2, ?_, hb3, hl3⟩
      simp only [rowPure, hdc, hrec, hwc]
      congr 3
      omega

theorem ranksPure_ok (table : List (List Char)) (ht : tableOk table = true) :
    ∀ (rs : List (List Char)) (i : Nat) (arr : Hash),
      (∀ r ∈ rs, (∀ c ∈ r, boardChar c = true) ∧ rowWidth r = 8) →
      bytesOk arr = true → arr.length = 8 →
      ∃ a2, ranksPure table i arr rs = some (a2, false, false) ∧
        bytesOk a2 = true ∧ a2.length = 8 := by
  intro rs
  induction rs with
  | nil =>
    intro i arr _ ha hl
    exact ⟨arr, by simp [ranksPure], ha, hl⟩
  | cons r rs ih =>
    intro i arr hv ha hl
    obtain ⟨hrc, hrw⟩ := hv r (by simp)
    obtain ⟨a2, hrow, hb2, hl2⟩ := rowPure_ok table ht (7 - i) (by omega) r 0 arr hrc ha hl
      (by omega)
    obtain ⟨a3, hrest, hb3, hl3⟩ := ih (i + 1) a2 (fun x hx => hv x (by simp [hx])) hb2 hl2
    refine ⟨a3, ?_, hb3, hl3⟩
    rw [show (0 : Nat) + rowWidth r = 8 by omega] at hrow
    simp [ranksPure, hrow, hrest]

theorem pawnAdjAt_false (c : Char) (rank file : Nat) (epR epF : Int)
    (h2 : epR ≠ 2) (h5 : epR ≠ 5) : pawnAdjAt c rank file epR epF = false := by
  simp [pawnAdjAt, h2, h5]

theorem rowAdj_false (rank : Nat) (epR epF : Int) (h2 : epR ≠ 2) (h5 : epR ≠ 5) :
    ∀ (cs : List Char) (file : Nat), rowAdj rank epR epF file cs = false := by
  intro cs
  induction cs with
  | nil => intro file; simp [rowAdj]
  | cons c cs ih =>
    intro file
    cases hcc : charClass c with
    | piece k => simp [rowAdj, hcc, pawnAdjAt_false c rank file epR epF h2 h5, ih]
    | digit d => simp [rowAdj, hcc, ih]
    | bad => simp [rowAdj, hcc]

theorem ranksAdj_false (epR epF : Int) (h2 : epR ≠ 2) (h5 : epR ≠ 5) :
    ∀ (rs : List (List Char)) (i : Nat), ranksAdj i epR epF rs = false := by
  intro rs
  induction rs with
  | nil => intro i; simp [ranksAdj]
  | cons r rs ih =>
    intro i
    simp [ranksAdj, rowAdj_false (7 - i) epR epF h2 h5, ih]

theorem rowAdj_any (i : Nat) (epR epF : Int) :
    ∀ (cs : List Char) (file : Nat), (∀ c ∈ cs, boardChar c = true) →
      rowAdj (7 - i) epR epF file cs =
        (rowSquares i file cs).any (fun s => pawnAdjAt s.1 s.2.1 s.2.2 epR epF) := by
  intro cs
  induction cs with
  | nil => intro file _; simp [rowAdj, rowSquares]
  | cons c cs ih =>
    intro file hbc
    have hc := hbc c (by simp)
    rcases boardChar_cases c hc with ⟨k, -, hkc, hpi⟩ | ⟨d, -, -, hdc, hdv⟩
    · simp only [rowAdj, hkc, rowSquares, hpi, List.any_cons]
      rw [ih (file + 1) (fun x hx => hbc x (by simp [hx]))]
    · have hpi : pieceKindIndex c = none := by
        cases hpk : pieceKindIndex c with
        | none => rfl
        | some k =>
          exfalso
          have : c ∈ ['p', 'P', 'n', 'N', 'b', 'B', 'r', 'R', 'q', 'Q', 'k', 'K'] := by
            revert hpk
            unfold pieceKindIndex
            split <;> simp_all
          fin_cases this <;> simp [charClass] at hdc
      simp only [rowAdj, hdc, rowSquares, hpi, hdv]
      rw [ih (file + d) (fun x hx => hbc x (by simp [hx]))]

theorem ranksAdj_any (epR epF : Int) :
    ∀ (rs : List (List Char)) (i : Nat), (∀ r ∈ rs, ∀ c ∈ r, boardChar c = true) →
      ranksAdj i epR epF rs =
        (ranksSquares i rs).any (fun s => pawnAdjAt s.1 s.2.1 s.2.2 epR epF) := by
  intro rs
  induction rs with
  | nil => intro i _; simp [ranksAdj, ranksSquares]
  | cons r rs ih =>
    intro i hv
    have hb : rowHasBad r = false := rowHasBad_false r (hv r (by simp))
    simp only [ranksAdj, hb, Bool.not_false, Bool.true_and, ranksSquares, List.any_append]
    rw [rowAdj_any i epR epF r 0 (hv r (by simp)), ih (i + 1) (fun x hx => hv x (by simp [hx]))]

theorem xorFold_append (table : List (List Char)) (arr : Hash) (l1 l2 : List Nat) :
    xorFold table arr (l1 ++ l2) =
      match xorFold table arr l1 with
      | none => none
      | some a => xorFold table a l2 := by
  induction l1 generalizing arr with
  | nil => simp [xorFold]
  | cons n ns ih =>
    simp only [List.cons_append, xorFold]
    cases xorHash table arr ((n : Nat) : Int) with
    | none => rfl
    | some a => exact ih a

theorem rowPure_fold (table : List (List Char)) (i : Nat) :
    ∀ (cs : List Char) (file : Nat) (arr : Hash), (∀ c ∈ cs, boardChar c = true) →
      rowPure table (7 - i) file arr cs =
        (xorFold table arr ((rowSquares i file cs).map squareIndex)).map
          (fun a => (false, a, file + rowWidth cs)) := by
  intro cs
  induction cs with
  | nil => intro file arr _; simp [rowPure, rowSquares, xorFold, rowWidth]
  | cons c cs ih =>
    intro file arr hbc
    have hc := hbc c (by simp)
    rcases boardChar_cases c hc with ⟨k, -, hkc, hpi⟩ | ⟨d, -, -, hdc, hdv⟩
    · have hidx : ((64 * k + 8 * (7 - i) + file : Nat) : Int) =
          ((squareIndex (c, 7 - i, file) : Nat) : Int) := by
        simp only [squareIndex, hpi, Option.getD_some]
        congr 1
        omega
      simp only [rowPure, hkc, rowSquares, hpi, List.map_cons, xorFold, hidx]
      cases hx : xorHash table arr ((squareIndex (c, 7 - i, file) : Nat) : Int) with
      | none => simp
      | some arr2 =>
        dsimp only
        rw [ih (file + 1) arr2 (fun x hx2 => hbc x (by simp [hx2]))]
        have hwr : rowWidth (c :: cs) = 1 + rowWidth cs := by simp [rowWidth, hkc]
        rw [hwr]
        simp only [Nat.add_assoc]
    · have hpi : pieceKindIndex c = none := by
        cases hpk : pieceKindIndex c with
        | none => rfl
        | some k =>
          exfalso
          have : c ∈ ['p', 'P', 'n', 'N', 'b', 'B', 'r', 'R', 'q', 'Q', 'k', 'K'] := by
            revert hpk
            unfold pieceKindIndex
            split <;> simp_all
          fin_cases this <;> simp [charClass] at hdc
      simp only [rowPure, hdc, rowSquares, hpi, hdv]
      rw [ih (file + d) arr (fun x hx2 => hbc x (by simp [hx2]))]
      have hwr : rowWidth (c :: cs) = d + rowWidth cs := by simp [rowWidth, hdc]
      rw [hwr]
      simp only [Nat.add_assoc]

theorem ranksPure_fold (table : List (List Char)) :
    ∀ (rs : List (List Char)) (i : Nat) (arr : Hash),
      (∀ r ∈ rs, ∀ c ∈ r, boardChar c = true) →
      (ranksPure table i arr rs).map (fun x => x.1) =
        xorFold table arr ((ranksSquares i rs).map squareIndex) := by
  intro rs
  induction rs with
  | nil => intro i arr _; simp [ranksPure, ranksSquares, xorFold]
  | cons r rs ih =>
    intro i arr hv
    simp only [ranksPure, ranksSquares, List.map_append]
    rw [xorFold_append, rowPure_fold table i r 0 arr (hv r (by simp))]
    cases hxf : xorFold table arr ((rowSquares i 0 r).map squareIndex) with
    | none => simp
    | some a =>
      simp only [Option.map_some']
      rw [← ih (i + 1) a (fun x hx => hv x (by simp [hx]))]
      cases hrp : ranksPure table (i + 1) a rs with
      | none => simp
      | some y => simp


/-!
Claim C1.
-/

/-- C1: for every FEN placement accepted by the validation pattern (eight
rank groups of board characters), each piece letter at FEN row i with
file counter f XORs exactly the constant at index
pieceKindIndex * 64 + (7 - i) * 8 + f in the fixed kind order, and a
digit d only advances the file counter by d: the hash component of
hashPieces equals the sequential XOR of the claim-side index list. -/
theorem claim_C1 (table : List (List Char)) (st : ParseState) (arr : Hash) (p : List Char)
    (h8 : (splitOnChar '/' p).length = 8)
    (hbc : ∀ r ∈ splitOnChar '/' p, ∀ c ∈ r, boardChar c = true) :
    (hashPieces table st arr p).map (fun x => x.2) = xorFold table arr (claimIndices p) := by
  unfold hashPieces claimIndices fenSquares
  rw [if_neg (by simp [h8])]
  rw [hashRanks_eq, Option.map_map]
  exact ranksPure_fold table (splitOnChar '/' p) 0 arr hbc

/-- Witness for C1 at the starting placement over the demonstration
table. -/
theorem claim_C1_witness :
    ((splitOnChar '/' startPlacement).length = 8 ∧
      ∀ r ∈ splitOnChar '/' startPlacement, ∀ c ∈ r, boardChar c = true) ∧
    (hashPieces demoTable resetState emptyHash startPlacement).map (fun x => x.2) =
      xorFold demoTable emptyHash (claimIndices startPlacement) :=
  ⟨⟨by decide, by decide⟩,
    claim_C1 demoTable resetState emptyHash startPlacement (by decide) (by decide)⟩

/-!
String plumbing: splitting, joining and trimming.
-/

theorem splitOnChar_cons (sep c : Char) (cs : List Char) :
    splitOnChar sep (c :: cs) =
      match splitOnChar sep cs with
      | [] => [[]]
      | g :: gs => if c = sep then [] :: g :: gs else (c :: g) :: gs := rfl

theorem splitOnChar_ne_nil (sep : Char) (s : List Char) : splitOnChar sep s ≠ [] := by
  induction s with
  | nil => simp [splitOnChar]
  | cons c cs ih =>
    rw [splitOnChar_cons]
    cases h : splitOnChar sep cs with
    | nil => exact absurd h ih
    | cons g gs => by_cases hc : c = sep <;> simp [hc]

theorem splitOnChar_not_mem (sep : Char) (a : List Char) (h : sep ∉ a) :
    splitOnChar sep a = [a] := by
  induction a with
  | nil => rfl
  | cons c cs ih =>
    have hc : c ≠ sep := fun hcc => h (hcc ▸ List.mem_cons_self c cs)
    have hcs : sep ∉ cs := fun hm => h (List.mem_cons_of_mem c hm)
    rw [splitOnChar_cons, ih hcs]
    simp [hc]

theorem splitOnChar_append (sep : Char) (a rest : List Char) (h : sep ∉ a) :
    splitOnChar sep (a ++ sep :: rest) = a :: splitOnChar sep rest := by
  induction a with
  | nil =>
    rw [List.nil_append, splitOnChar_cons]
    cases hr : splitOnChar sep rest with
    | nil => exact absurd hr (splitOnChar_ne_nil sep rest)
    | cons g gs => simp
  | cons c cs ih =>
    have hc : c ≠ sep := fun hcc => h (hcc ▸ List.mem_cons_self c cs)
    have hcs : sep ∉ cs := fun hm => h (List.mem_cons_of_mem c hm)
    rw [List.cons_append, splitOnChar_cons, ih hcs]
    simp [hc]

theorem joinSep_split (sep : Char) (rs : List (List Char)) (hne : rs ≠ [])
    (h : ∀ r ∈ rs, sep ∉ r) : splitOnChar sep (joinSep sep rs) = rs := by
  induction rs with
  | nil => exact absurd rfl hne
  | cons r rs ih =>
    cases rs with
    | nil =>
      simp only [joinSep]
      exact splitOnChar_not_mem sep r (h r (by simp))
    | cons r2 rs2 =>
      have hj : joinSep sep (r :: r2 :: rs2) = r ++ sep :: joinSep sep (r2 :: rs2) := rfl
      rw [hj, splitOnChar_append sep r _ (h r (by simp))]
      rw [ih (by simp) (fun x hx => h x (by simp [hx]))]

theorem mem_joinSep (sep : Char) (rs : List (List Char)) (c : Char)
    (h : c ∈ joinSep sep rs) : c = sep ∨ ∃ r ∈ rs, c ∈ r := by
  induction rs with
  | nil => simp [joinSep] at h
  | cons r rs ih =>
    cases rs with
    | nil =>
      simp only [joinSep] at h
      exact Or.inr ⟨r, by simp, h⟩
    | cons r2 rs2 =>
      have hj : joinSep sep (r :: r2 :: rs2) = r ++ sep :: joinSep sep (r2 :: rs2) := rfl
      rw [hj] at h
      rcases List.mem_append.mp h with hr | hrest
      · exact Or.inr ⟨r, by simp, hr⟩
      · rcases List.mem_cons.mp hrest with hc | hj2
        · exact Or.inl hc
        · rcases ih hj2 with hc | ⟨g, hg, hcg⟩
          · exact Or.inl hc
          · exact Or.inr ⟨g, by simp [hg], hcg⟩

theorem notMem_of_class (P : Char → Bool) (s : List Char) (hP : ∀ c ∈ s, P c = true)
    (x : Char) (hx : P x = false) : x ∉ s := by
  intro hm
  have := hP x hm
  rw [hx] at this
  exact Bool.false_ne_true this

theorem splitOnChar_assembleFen (p col ca ep h m : List Char)
    (hp : ' ' ∉ p) (hcol : ' ' ∉ col) (hca : ' ' ∉ ca) (hep : ' ' ∉ ep)
    (hh : ' ' ∉ h) (hm : ' ' ∉ m) :
    splitOnChar ' ' (assembleFen p col ca ep h m) = [p, col, ca, ep, h, m] := by
  unfold assembleFen
  rw [splitOnChar_append ' ' p _ hp, splitOnChar_append ' ' col _ hcol,
    splitOnChar_append ' ' ca _ hca, splitOnChar_append ' ' ep _ hep,
    splitOnChar_append ' ' h _ hh, splitOnChar_not_mem ' ' m hm]

theorem trim_eq_self (s : List Char)
    (hh : ∀ c, s.head? = some c → c.isWhitespace = false)
    (hl : ∀ c, s.getLast? = some c → c.isWhitespace = false) : trim s = s := by
  unfold trim
  have h1 : s.dropWhile Char.isWhitespace = s := by
    cases s with
    | nil => rfl
    | cons a l =>
      rw [List.dropWhile_cons, if_neg (by simp [hh a rfl])]
  rw [h1]
  have h2 : s.reverse.dropWhile Char.isWhitespace = s.reverse := by
    cases hr : s.reverse with
    | nil => rfl
    | cons a l =>
      have hla : s.getLast? = some a := by
        rw [← List.head?_reverse, hr]
        rfl
      rw [List.dropWhile_cons, if_neg (by simp [hl a hla])]
  rw [h2, List.reverse_reverse]

/-!
Hexadecimal rendering facts and XOR commutation.
-/

set_option maxRecDepth 400000 in
theorem byteHex_roundTrip :
    ∀ n, n < 256 → (byteToHex (some n)).length = 2 ∧
      parseHexString (byteToHex (some n)) = [some n] := by decide

theorem createHexString_cons (b : JSNum) (t : Hash) :
    createHexString (b :: t) = byteToHex b ++ createHexString t := by
  simp [createHexString]

theorem createHex_parse (h : Hash) (hb : bytesOk h = true) :
    parseHexString (createHexString h) = h := by
  induction h with
  | nil => rfl
  | cons b t ih =>
    simp only [bytesOk, List.all_cons, Bool.and_eq_true] at hb
    have hbn : ∃ n, b = some n ∧ n < 256 := by
      cases b with
      | none => simp at hb
      | some n => exact ⟨n, rfl, by simpa using hb.1⟩
    obtain ⟨n, rfl, hn⟩ := hbn
    have h2 := byteHex_roundTrip n hn
    have hcc : ∃ c1 c2, byteToHex (some n) = [c1, c2] := by
      match hby : byteToHex (some n) with
      | [c1, c2] => exact ⟨c1, c2, rfl⟩
      | [] => rw [hby] at h2; simp at h2
      | [c] => rw [hby] at h2; simp at h2
      | c1 :: c2 :: c3 :: r => rw [hby] at h2; simp at h2
    obtain ⟨c1, c2, hby⟩ := hcc
    have hpi : parseInt16 c1 c2 = some n := by
      have := h2.2
      rw [hby] at this
      simpa [parseHexString] using this
    rw [createHexString_cons, hby]
    show parseInt16 c1 c2 :: parseHexString (createHexString t) = some n :: t
    rw [hpi, ih (by simpa [bytesOk] using hb.2)]

theorem createHex_inj (h1 h2 : Hash) (hb1 : bytesOk h1 = true) (hb2 : bytesOk h2 = true)
    (he : createHexString h1 = createHexString h2) : h1 = h2 := by
  rw [← createHex_parse h1 hb1, ← createHex_parse h2 hb2, he]

theorem createHex_length (h : Hash) (hb : bytesOk h = true) :
    (createHexString h).length = 2 * h.length := by
  induction h with
  | nil => rfl
  | cons b t ih =>
    simp only [bytesOk, List.all_cons, Bool.and_eq_true] at hb
    have hbn : ∃ n, b = some n ∧ n < 256 := by
      cases b with
      | none => simp at hb
      | some n => exact ⟨n, rfl, by simpa using hb.1⟩
    obtain ⟨n, rfl, hn⟩ := hbn
    rw [createHexString_cons, List.length_append, (byteHex_roundTrip n hn).1,
      ih (by simpa [bytesOk] using hb.2)]
    simp only [List.length_cons]
    omega

theorem xorArrays_right_comm (a e g : Hash) :
    xorArrays (xorArrays a e) g = xorArrays (xorArrays a g) e := by
  induction a generalizing e g with
  | nil => simp [xorArrays]
  | cons x xs ih =>
    cases e with
    | nil => simp [xorArrays]
    | cons y ys =>
      cases g with
      | nil => simp [xorArrays]
      | cons z zs =>
        simp only [xorArrays, List.zipWith_cons_cons]
        refine congrArg₂ List.cons ?_ (ih ys zs)
        simp only [jsXor, Option.getD_some]
        rw [Nat.xor_assoc, Nat.xor_assoc, Nat.xor_comm (y.getD 0) (z.getD 0)]

theorem xorHash_xorArrays (table : List (List Char)) (arr e : Hash) (num : Int) :
    xorHash table (xorArrays arr e) num =
      (xorHash table arr num).map (fun x => xorArrays x e) := by
  unfold xorHash
  cases tableGet table num with
  | none => rfl
  | some entry => simp [xorArrays_right_comm]

theorem hashSide_xorArrays (table : List (List Char)) (arr e : Hash) (col : List Char) :
    hashSide table (xorArrays arr e) col =
      (hashSide table arr col).map (fun x => xorArrays x e) := by
  unfold hashSide
  by_cases hc : col = ['w'] <;> simp [hc, xorHash_xorArrays]

theorem condXor_xorArrays (table : List (List Char)) (b : Bool) (n : Int) (arr e : Hash) :
    (if b then xorHash table (xorArrays arr e) n else some (xorArrays arr e)) =
      (if b then xorHash table arr n else some arr).map (fun x => xorArrays x e) := by
  cases b <;> simp [xorHash_xorArrays]

theorem hashCastling_eq (table : List (List Char)) (arr : Hash) (ca : List Char)
    (hd : ca ≠ ['-']) :
    hashCastling table arr ca =
      (if ca.contains 'K' then xorHash table arr 768 else some arr).bind (fun a1 =>
        (if ca.contains 'Q' then xorHash table a1 769 else some a1).bind (fun a2 =>
          (if ca.contains 'k' then xorHash table a2 770 else some a2).bind (fun a3 =>
            if ca.contains 'q' then xorHash table a3 771 else some a3))) := by
  unfold hashCastling
  rw [if_neg hd]
  by_cases hK : 'K' ∈ ca <;> by_cases hQ : 'Q' ∈ ca <;>
    by_cases hk : 'k' ∈ ca <;> simp [hK, hQ, hk]

theorem hashCastling_xorArrays (table : List (List Char)) (arr e : Hash) (ca : List Char) :
    hashCastling table (xorArrays arr e) ca =
      (hashCastling table arr ca).map (fun x => xorArrays x e) := by
  by_cases hd : ca = ['-']
  · simp [hashCastling, hd]
  · rw [hashCastling_eq table (xorArrays arr e) ca hd, hashCastling_eq table arr ca hd]
    rw [condXor_xorArrays]
    cases h1 : (if ca.contains 'K' then xorHash table arr 768 else some arr) with
    | none => simp
    | some a1 =>
      simp only [Option.map_some', Option.some_bind]
      rw [condXor_xorArrays]
      cases h2 : (if ca.contains 'Q' then xorHash table a1 769 else some a1) with
      | none => simp
      | some a2 =>
        simp only [Option.map_some', Option.some_bind]
        rw [condXor_xorArrays]
        cases h3 : (if ca.contains 'k' then xorHash table a2 770 else some a2) with
        | none => simp
        | some a3 =>
          simp only [Option.map_some', Option.some_bind]
          rw [condXor_xorArrays]

/-!
Success of the side and castling stages, parseEnPassant shapes, and
whitespace facts.
-/

theorem boardChar_not_ws (c : Char) (h : boardChar c = true) : c.isWhitespace = false := by
  have hm : c ∈ ['r', 'n', 'b', 'q', 'k', 'p', 'R', 'N', 'B', 'Q', 'K', 'P',
      '1', '2', '3', '4', '5', '6', '7', '8'] := by
    simpa [boardChar] using h
  fin_cases hm <;> decide

theorem decDigit_not_ws (c : Char) (h : decDigit c = true) : c.isWhitespace = false := by
  have hm : c ∈ ['0', '1', '2', '3', '4', '5', '6', '7', '8', '9'] := by
    simpa [decDigit] using h
  fin_cases hm <;> decide

theorem emptyHash_ok : bytesOk emptyHash = true ∧ emptyHash.length = 8 := by decide

theorem hashSide_ok (table : List (List Char)) (ht : tableOk table = true)
    (arr : Hash) (ha : bytesOk arr = true) (hl : arr.length = 8) (col : List Char) :
    ∃ a2, hashSide table arr col = some a2 ∧ bytesOk a2 = true ∧ a2.length = 8 := by
  unfold hashSide
  by_cases hc : col = ['w']
  · rw [if_pos hc]
    exact xorHash_ok table ht arr 780 (by norm_num) (by norm_num) ha hl
  · rw [if_neg hc]
    exact ⟨arr, rfl, ha, hl⟩

theorem condXor_ok (table : List (List Char)) (ht : tableOk table = true) (b : Bool)
    (n : Int) (h0 : 0 ≤ n) (h781 : n < 781) (arr : Hash)
    (ha : bytesOk arr = true) (hl : arr.length = 8) :
    ∃ a2, (if b then xorHash table arr n else some arr) = some a2 ∧
      bytesOk a2 = true ∧ a2.length = 8 := by
  cases b
  · exact ⟨arr, rfl, ha, hl⟩
  · simpa using xorHash_ok table ht arr n h0 h781 ha hl

theorem hashCastling_ok (table : List (List Char)) (ht : tableOk table = true)
    (arr : Hash) (ha : bytesOk arr = true) (hl : arr.length = 8) (ca : List Char) :
    ∃ a2, hashCastling table arr ca = some a2 ∧ bytesOk a2 = true ∧ a2.length = 8 := by
  by_cases hd : ca = ['-']
  · exact ⟨arr, by simp [hashCastling, hd], ha, hl⟩
  · rw [hashCastling_eq table arr ca hd]
    obtain ⟨a1, h1, hb1, hl1⟩ := condXor_ok table ht (ca.contains 'K') 768
      (by norm_num) (by norm_num) arr ha hl
    obtain ⟨a2, h2, hb2, hl2⟩ := condXor_ok table ht (ca.contains 'Q') 769
      (by norm_num) (by norm_num) a1 hb1 hl1
    obtain ⟨a3, h3, hb3, hl3⟩ := condXor_ok table ht (ca.contains 'k') 770
      (by norm_num) (by norm_num) a2 hb2 hl2
    obtain ⟨a4, h4, hb4, hl4⟩ := condXor_ok table ht (ca.contains 'q') 771
      (by norm_num) (by norm_num) a3 hb3 hl3
    refine ⟨a4, ?_, hb4, hl4⟩
    rw [h1]
    simp only [Option.some_bind]
    rw [h2]
    simp only [Option.some_bind]
    rw [h3]
    simp only [Option.some_bind]
    exact h4

theorem parseEnPassant_dash (st : ParseState) : parseEnPassant st ['-'] = st := by
  simp [parseEnPassant]

theorem parseEnPassant_square (st : ParseState) (fc rc : Char)
    (hf0 : 0 ≤ (fc.toNat : Int) - 97) (hf7 : (fc.toNat : Int) - 97 ≤ 7)
    (hr0 : 0 ≤ (rc.toNat : Int) - 49) (hr7 : (rc.toNat : Int) - 49 ≤ 7) :
    parseEnPassant st [fc, rc] =
      { st with
          enPasFile := (fc.toNat : Int) - 97
          enPasRank := (rc.toNat : Int) - 49 } := by
  unfold parseEnPassant
  rw [if_neg (by simp)]
  dsimp only
  rw [if_neg (by omega)]

theorem boardOk_of (rs : List (List Char)) (h8 : rs.length = 8)
    (hpv : ∀ r ∈ rs, (∀ c ∈ r, boardChar c = true) ∧ rowWidth r = 8) :
    boardOk (joinSep '/' rs) = true := by
  unfold boardOk
  have hsf : ∀ r ∈ rs, '/' ∉ r := fun r hr =>
    notMem_of_class boardChar r (hpv r hr).1 '/' (by decide)
  rw [joinSep_split '/' rs (by rintro rfl; simp at h8) hsf]
  simp only [h8, List.all_eq_true, Bool.and_eq_true]
  refine ⟨by simp, ?_⟩
  intro r hr
  refine ⟨?_, fun c hc => (hpv r hr).1 c hc⟩
  have hw := (hpv r hr).2
  cases r with
  | nil => simp [rowWidth] at hw
  | cons c t => simp

/-!
The full pipeline on an assembled valid FEN string.
-/

theorem hashPieces_valid (table : List (List Char)) (st : ParseState) (arr : Hash)
    (rs : List (List Char)) (h8 : rs.length = 8) (hsf : ∀ r ∈ rs, '/' ∉ r) :
    hashPieces table st arr (joinSep '/' rs) = hashRanks table 0 st arr rs := by
  unfold hashPieces
  rw [joinSep_split '/' rs (by rintro rfl; simp at h8) hsf]
  simp [h8]

theorem pipeline_core (table : List (List Char)) (ht : tableOk table = true)
    (rs : List (List Char)) (col ca ep h m : List Char)
    (h8 : rs.length = 8)
    (hpv : ∀ r ∈ rs, (∀ c ∈ r, boardChar c = true) ∧ rowWidth r = 8)
    (hcol : col = ['w'] ∨ col = ['b'])
    (hca : castlingOk ca = true)
    (hep : epOk ep = true)
    (hh : digitsOk h = true) (hm : digitsOk m = true)
    (st1 : ParseState)
    (hst1 : parseEnPassant resetState ep = st1)
    (hst1e : st1.error = false) (hst1n : st1.pawnNearby = false)
    (hfb : ranksAdj 0 st1.enPasRank st1.enPasFile rs = true →
      0 ≤ st1.enPasFile ∧ st1.enPasFile < 8) :
    ∃ H1 H2 H4,
      ranksPure table 0 emptyHash rs = some (H1, false, false) ∧
      (if ranksAdj 0 st1.enPasRank st1.enPasFile rs then
        xorHash table H1 (772 + st1.enPasFile) else some H1) = some H2 ∧
      (hashSide table H2 col).bind (fun x => hashCastling table x ca) = some H4 ∧
      bytesOk H4 = true ∧ H4.length = 8 ∧
      hashPositionCore table (assembleFen (joinSep '/' rs) col ca ep h m) =
        some (createHexString H4,
          { st1 with pawnNearby := ranksAdj 0 st1.enPasRank st1.enPasFile rs }) := by
  obtain ⟨hbe, hle⟩ := emptyHash_ok
  -- stage results
  obtain ⟨H1, hH1, hb1, hl1⟩ := ranksPure_ok table ht rs 0 emptyHash hpv hbe hle
  have hH2 : ∃ H2, (if ranksAdj 0 st1.enPasRank st1.enPasFile rs then
      xorHash table H1 (772 + st1.enPasFile) else some H1) = some H2 ∧
      bytesOk H2 = true ∧ H2.length = 8 := by
    cases hadj : ranksAdj 0 st1.enPasRank st1.enPasFile rs with
    | false => exact ⟨H1, by simp, hb1, hl1⟩
    | true =>
      obtain ⟨hf0, hf8⟩ := hfb hadj
      obtain ⟨H2, hx, hb, hl⟩ := xorHash_ok table ht H1 (772 + st1.enPasFile)
        (by omega) (by omega) hb1 hl1
      exact ⟨H2, by simp [hx], hb, hl⟩
  obtain ⟨H2, hH2, hb2, hl2⟩ := hH2
  obtain ⟨H3, hH3, hb3, hl3⟩ := hashSide_ok table ht H2 hb2 hl2 col
  obtain ⟨H4, hH4, hb4, hl4⟩ := hashCastling_ok table ht H3 hb3 hl3 ca
  have hSC : (hashSide table H2 col).bind (fun x => hashCastling table x ca) = some H4 := by
    rw [hH3]
    simpa using hH4
  -- fields are space free
  have hcaOk := hca
  unfold castlingOk at hcaOk
  simp only [Bool.and_eq_true, decide_eq_true_eq, List.all_eq_true] at hcaOk
  have hepOk := hep
  unfold epOk at hepOk
  simp only [Bool.and_eq_true, decide_eq_true_eq, List.all_eq_true] at hepOk
  have hhOk := hh
  unfold digitsOk at hhOk
  simp only [Bool.and_eq_true, List.all_eq_true, Bool.not_eq_true', List.isEmpty_eq_false] at hhOk
  have hmOk := hm
  unfold digitsOk at hmOk
  simp only [Bool.and_eq_true, List.all_eq_true, Bool.not_eq_true', List.isEmpty_eq_false] at hmOk
  have hpsp : ' ' ∉ joinSep '/' rs := by
    intro hmem
    rcases mem_joinSep '/' rs ' ' hmem with hc | ⟨r, hr, hcr⟩
    · simp at hc
    · have := (hpv r hr).1 ' ' hcr
      simp [boardChar] at this
  have hcolsp : ' ' ∉ col := by
    rcases hcol with rfl | rfl <;> simp
  have hcasp : ' ' ∉ ca := notMem_of_class castlingChar ca hcaOk.2 ' ' (by decide)
  have hepsp : ' ' ∉ ep := notMem_of_class epChar ep hepOk.2 ' ' (by decide)
  have hhsp : ' ' ∉ h := notMem_of_class decDigit h hhOk.2 ' ' (by decide)
  have hmsp : ' ' ∉ m := notMem_of_class decDigit m hmOk.2 ' ' (by decide)
  have hsplit : splitOnChar ' ' (assembleFen (joinSep '/' rs) col ca ep h m) =
      [joinSep '/' rs, col, ca, ep, h, m] :=
    splitOnChar_assembleFen _ _ _ _ _ _ hpsp hcolsp hcasp hepsp hhsp hmsp
  -- the pattern accepts the assembled string
  have hpat : validFenPattern (assembleFen (joinSep '/' rs) col ca ep h m) = true := by
    unfold validFenPattern
    rw [hsplit]
    have hb := boardOk_of rs h8 hpv
    rcases hcol with rfl | rfl <;> simp [hb, hca, hep, hh, hm]
  -- the assembled string needs no trimming
  have hrs0 : ∃ r0 t0, rs = r0 :: t0 := by
    cases rs with
    | nil => simp at h8
    | cons r0 t0 => exact ⟨r0, t0, rfl⟩
  obtain ⟨r0, t0, rfl⟩ := hrs0
  have hr0c : ∃ c0 cr, r0 = c0 :: cr := by
    cases r0 with
    | nil =>
      have := (hpv [] (by simp)).2
      simp [rowWidth] at this
    | cons c0 cr => exact ⟨c0, cr, rfl⟩
  obtain ⟨c0, cr, rfl⟩ := hr0c
  have hjoin_cons : ∃ jt, joinSep '/' ((c0 :: cr) :: t0) = c0 :: jt := by
    cases t0 with
    | nil => exact ⟨cr, rfl⟩
    | cons r2 t2 => exact ⟨cr ++ '/' :: joinSep '/' (r2 :: t2), rfl⟩
  obtain ⟨jt, hjt⟩ := hjoin_cons
  have hm0 : ∃ cm mt, m = cm :: mt := by
    cases m with
    | nil => simp at hmOk
    | cons cm mt => exact ⟨cm, mt, rfl⟩
  obtain ⟨cm, mt, hmeq⟩ := hm0
  have htrim : trim (assembleFen (joinSep '/' ((c0 :: cr) :: t0)) col ca ep h m) =
      assembleFen (joinSep '/' ((c0 :: cr) :: t0)) col ca ep h m := by
    apply trim_eq_self
    · intro c hc
      unfold assembleFen at hc
      rw [hjt] at hc
      simp only [List.cons_append, List.head?_cons, Option.some.injEq] at hc
      subst hc
      exact boardChar_not_ws c0 ((hpv (c0 :: cr) (by simp)).1 c0 (by simp))
    · intro c hc
      have hgl : (assembleFen (joinSep '/' ((c0 :: cr) :: t0)) col ca ep h m).getLast? =
          m.getLast? := by
        unfold assembleFen
        rw [List.getLast?_append_cons,
          show (' ' :: (col ++ ' ' :: (ca ++ ' ' :: (ep ++ ' ' :: (h ++ ' ' :: m))))) =
            (' ' :: col) ++ ' ' :: (ca ++ ' ' :: (ep ++ ' ' :: (h ++ ' ' :: m))) from rfl,
          List.getLast?_append_cons,
          show (' ' :: (ca ++ ' ' :: (ep ++ ' ' :: (h ++ ' ' :: m)))) =
            (' ' :: ca) ++ ' ' :: (ep ++ ' ' :: (h ++ ' ' :: m)) from rfl,
          List.getLast?_append_cons,
          show (' ' :: (ep ++ ' ' :: (h ++ ' ' :: m))) =
            (' ' :: ep) ++ ' ' :: (h ++ ' ' :: m) from rfl,
          List.getLast?_append_cons,
          show (' ' :: (h ++ ' ' :: m)) = (' ' :: h) ++ ' ' :: m from rfl,
          List.getLast?_append_cons, hmeq, List.getLast?_cons_cons]
      rw [hgl] at hc
      exact decDigit_not_ws c (hmOk.2 c (List.mem_of_mem_getLast? hc))
  -- evaluate the pipeline
  refine ⟨H1, H2, H4, hH1, hH2, hSC, hb4, hl4, ?_⟩
  unfold hashPositionCore
  rw [hpat]
  simp only [Bool.not_true, Bool.false_eq_true, if_false]
  rw [htrim, hsplit]
  dsimp only
  have hpne : (joinSep '/' ((c0 :: cr) :: t0)).isEmpty = false := by
    rw [hjt]
    rfl
  have hcolne : col.isEmpty = false := by
    rcases hcol with rfl | rfl <;> rfl
  have hcane : ca.isEmpty = false := by
    cases ca with
    | nil => simp at hcaOk
    | cons a t => rfl
  have hepne : ep.isEmpty = false := by
    cases ep with
    | nil => simp at hepOk
    | cons a t => rfl
  rw [hpne, hcolne, hcane, hepne]
  simp only [Bool.or_self, Bool.false_or, if_false]
  rw [hst1]
  have hsf : ∀ r ∈ (c0 :: cr) :: t0, '/' ∉ r := fun r hr =>
    notMem_of_class boardChar r (hpv r hr).1 '/' (by decide)
  rw [hashPieces_valid table st1 emptyHash ((c0 :: cr) :: t0) h8 hsf]
  rw [hashRanks_eq, hH1]
  simp only [Option.map_some']
  dsimp only
  simp only [hst1e, hst1n, Bool.false_or, Bool.or_false]
  rw [hH2]
  dsimp only
  rw [hH3]
  dsimp only
  rw [hH4]
  simp [hst1e]

/-!
Claim C3.
-/

theorem xorArrays_cancel (H e : Hash) (hx : xorArrays H e = H) (hlen : e.length ≤ H.length) :
    ∀ v ∈ e, v.getD 0 = 0 := by
  induction H generalizing e with
  | nil =>
    intro v hv
    have : e = [] := List.length_eq_zero.mp (by simpa using hlen)
    subst this
    simp at hv
  | cons x xs ih =>
    intro v hv
    cases e with
    | nil => simp at hv
    | cons y ys =>
      simp only [xorArrays, List.zipWith_cons_cons, List.cons.injEq] at hx
      rcases List.mem_cons.mp hv with rfl | hvys
      · have hhead := hx.1
        cases x with
        | none => simp [jsXor] at hhead
        | some n =>
          simp only [jsXor, Option.getD_some, Option.some.injEq] at hhead
          have h2 := congrArg (fun z => n ^^^ z) hhead.symm
          simpa [← Nat.xor_assoc, Nat.xor_self] using h2.symm
      · exact ih ys (by simpa [xorArrays] using hx.2) (by simpa using hlen) v hvys

/-- C3: for a FEN valid apart from its en-passant field, a declared
en-passant square with no adjacent capturing pawn of the matching colour
and rank hashes identically to the same FEN with en-passant dash, and
with at least one adjacent pawn the constant at index 772 plus the
en-passant file is XORed in exactly once. -/
theorem claim_C3 (table : List (List Char)) (ht : tableOk table = true)
    (rs : List (List Char)) (col ca h m : List Char) (fc rc : Char)
    (h8 : rs.length = 8)
    (hpv : ∀ r ∈ rs, (∀ c ∈ r, boardChar c = true) ∧ rowWidth r = 8)
    (hcol : col = ['w'] ∨ col = ['b'])
    (hca : castlingOk ca = true)
    (hfc : fc ∈ ['a', 'b', 'c', 'd', 'e', 'f', 'g', 'h'])
    (hrc : rc ∈ ['1', '2', '3', '4', '5', '6', '7', '8'])
    (hh : digitsOk h = true) (hm : digitsOk m = true) :
    (epAdjacent (joinSep '/' rs) ((rc.toNat : Int) - 49) ((fc.toNat : Int) - 97) = false →
      hashPosition table (assembleFen (joinSep '/' rs) col ca [fc, rc] h m) =
        hashPosition table (assembleFen (joinSep '/' rs) col ca ['-'] h m)) ∧
    (epAdjacent (joinSep '/' rs) ((rc.toNat : Int) - 49) ((fc.toNat : Int) - 97) = true →
      ∃ e Hd,
        tableGet table (772 + ((fc.toNat : Int) - 97)) = some e ∧
        hashPosition table (assembleFen (joinSep '/' rs) col ca ['-'] h m) =
          some (createHexString Hd) ∧
        hashPosition table (assembleFen (joinSep '/' rs) col ca [fc, rc] h m) =
          some (createHexString (xorArrays Hd (parseHexString e)))) := by
  have hf0 : 0 ≤ (fc.toNat : Int) - 97 := by fin_cases hfc <;> decide
  have hf7 : (fc.toNat : Int) - 97 ≤ 7 := by fin_cases hfc <;> decide
  have hr0 : 0 ≤ (rc.toNat : Int) - 49 := by fin_cases hrc <;> decide
  have hr7 : (rc.toNat : Int) - 49 ≤ 7 := by fin_cases hrc <;> decide
  have hepOkSq : epOk [fc, rc] = true := by
    fin_cases hfc <;> fin_cases hrc <;> decide
  have hepOkD : epOk ['-'] = true := by decide
  have hchars : ∀ r ∈ rs, ∀ c ∈ r, boardChar c = true := fun r hr => (hpv r hr).1
  have hadj_eq : ranksAdj 0 ((rc.toNat : Int) - 49) ((fc.toNat : Int) - 97) rs =
      epAdjacent (joinSep '/' rs) ((rc.toNat : Int) - 49) ((fc.toNat : Int) - 97) := by
    unfold epAdjacent fenSquares
    rw [joinSep_split '/' rs (by rintro rfl; simp at h8)
      (fun r hr => notMem_of_class boardChar r (hchars r hr) '/' (by decide))]
    exact ranksAdj_any _ _ rs 0 hchars
  have hsq : parseEnPassant resetState [fc, rc] =
      { resetState with
          enPasFile := (fc.toNat : Int) - 97
          enPasRank := (rc.toNat : Int) - 49 } :=
    parseEnPassant_square resetState fc rc hf0 hf7 hr0 hr7
  obtain ⟨E1, E2, E4, hE1, hE2, hESC, hbe4, hle4, hEcore⟩ :=
    pipeline_core table ht rs col ca [fc, rc] h m h8 hpv hcol hca hepOkSq hh hm
      ⟨false, (rc.toNat : Int) - 49, (fc.toNat : Int) - 97, false⟩
      (by rw [hsq]; rfl) rfl rfl
      (fun _ => ⟨hf0, show (fc.toNat : Int) - 97 < 8 by omega⟩)
  dsimp only at hE2 hEcore
  obtain ⟨D1, D2, D4, hD1, hD2, hDSC, hbd4, hld4, hDcore⟩ :=
    pipeline_core table ht rs col ca ['-'] h m h8 hpv hcol hca hepOkD hh hm
      ⟨false, -1, -1, false⟩
      (by rw [parseEnPassant_dash]; rfl) rfl rfl
      (by
        intro hcontr
        dsimp only at hcontr
        rw [ranksAdj_false (-1) (-1) (by decide) (by decide) rs 0] at hcontr
        exact absurd hcontr (by simp))
  dsimp only at hD2 hDcore
  have hDadj : ranksAdj 0 (-1) (-1) rs = false :=
    ranksAdj_false (-1) (-1) (by decide) (by decide) rs 0
  have hED1 : D1 = E1 := by
    simpa using hD1.symm.trans hE1
  have hD2' : D2 = E1 := by
    rw [hDadj] at hD2
    have : D1 = D2 := by simpa using hD2
    rw [← this, hED1]
  rw [hD2'] at hDSC
  constructor
  · intro hnadj
    have hEadj : ranksAdj 0 ((rc.toNat : Int) - 49) ((fc.toNat : Int) - 97) rs = false := by
      rw [hadj_eq]; exact hnadj
    have hE2' : E2 = E1 := by
      rw [hEadj] at hE2
      simpa using hE2.symm
    rw [hE2'] at hESC
    have hE4D4 : E4 = D4 := by
      simpa using hESC.symm.trans hDSC
    unfold hashPosition
    rw [hEcore, hDcore, hE4D4]
    rfl
  · intro hadj
    have hEadj : ranksAdj 0 ((rc.toNat : Int) - 49) ((fc.toNat : Int) - 97) rs = true := by
      rw [hadj_eq]; exact hadj
    rw [hEadj] at hE2
    simp only [if_true] at hE2
    obtain ⟨e, hte, hE2e⟩ : ∃ e, tableGet table (772 + ((fc.toNat : Int) - 97)) = some e ∧
        E2 = xorArrays E1 (parseHexString e) := by
      unfold xorHash at hE2
      cases htg : tableGet table (772 + ((fc.toNat : Int) - 97)) with
      | none => rw [htg] at hE2; simp at hE2
      | some e =>
        rw [htg] at hE2
        simp only [Option.map_some', Option.some.injEq] at hE2
        exact ⟨e, rfl, hE2.symm⟩
    obtain ⟨D3, hD3, hD4c⟩ : ∃ D3, hashSide table E1 col = some D3 ∧
        hashCastling table D3 ca = some D4 := by
      cases hds : hashSide table E1 col with
      | none => rw [hds] at hDSC; simp at hDSC
      | some D3 =>
        rw [hds] at hDSC
        simp only [Option.some_bind] at hDSC
        exact ⟨D3, rfl, hDSC⟩
    have hE4 : E4 = xorArrays D4 (parseHexString e) := by
      have hside : hashSide table E2 col = some (xorArrays D3 (parseHexString e)) := by
        rw [hE2e, hashSide_xorArrays, hD3]
        rfl
      have hcast : hashCastling table (xorArrays D3 (parseHexString e)) ca =
          some (xorArrays D4 (parseHexString e)) := by
        rw [hashCastling_xorArrays, hD4c]
        rfl
      have h5 := hESC
      rw [hside] at h5
      simp only [Option.some_bind] at h5
      rw [hcast] at h5
      simpa using h5.symm
    refine ⟨e, D4, hte, ?_, ?_⟩
    · unfold hashPosition
      rw [hDcore]
      rfl
    · unfold hashPosition
      rw [hEcore, hE4]
      rfl

theorem demoTable_ok : tableOk demoTable = true := by
  unfold tableOk demoTable
  rw [Bool.and_eq_true]
  refine ⟨decide_eq_true (List.length_replicate 781 _), ?_⟩
  rw [List.all_eq_true]
  intro e he
  have hmem := List.eq_of_mem_replicate he
  rw [hmem]
  decide

/-- Witness for C3 at a position where a black pawn on d4 sits beside
the declared en-passant target e3, over the demonstration table. -/
theorem claim_C3_witness :
    (tableOk demoTable = true ∧ c3Rows.length = 8 ∧
      (∀ r ∈ c3Rows, (∀ c ∈ r, boardChar c = true) ∧ rowWidth r = 8) ∧
      castlingOk ("KQkq".data) = true ∧ digitsOk ['0'] = true ∧ digitsOk ['1'] = true) ∧
    ((epAdjacent (joinSep '/' c3Rows) ((('3').toNat : Int) - 49) ((('e').toNat : Int) - 97) = false →
      hashPosition demoTable (assembleFen (joinSep '/' c3Rows) ['b'] ("KQkq".data) ['e', '3'] ['0'] ['1']) =
        hashPosition demoTable (assembleFen (joinSep '/' c3Rows) ['b'] ("KQkq".data) ['-'] ['0'] ['1'])) ∧
    (epAdjacent (joinSep '/' c3Rows) ((('3').toNat : Int) - 49) ((('e').toNat : Int) - 97) = true →
      ∃ e Hd,
        tableGet demoTable (772 + ((('e').toNat : Int) - 97)) = some e ∧
        hashPosition demoTable (assembleFen (joinSep '/' c3Rows) ['b'] ("KQkq".data) ['-'] ['0'] ['1']) =
          some (createHexString Hd) ∧
        hashPosition demoTable (assembleFen (joinSep '/' c3Rows) ['b'] ("KQkq".data) ['e', '3'] ['0'] ['1']) =
          some (createHexString (xorArrays Hd (parseHexString e))))) :=
  ⟨⟨demoTable_ok, by decide, by decide, by decide, by decide, by decide⟩,
    claim_C3 demoTable demoTable_ok c3Rows ['b'] ("KQkq".data) ['0'] ['1'] 'e' '3'
      (by decide) (by decide) (Or.inr rfl) (by decide) (by decide) (by decide)
      (by decide) (by decide)⟩

/-!
Claim C5.
-/

/-- C5: the side stage XORs constant 780 exactly when the side field is
w and is a no-op for b, and two otherwise identical valid FEN strings
with opposite side fields hash differently whenever the parsed side
constant has a nonzero byte (as the published table provides). -/
theorem claim_C5 (table : List (List Char)) (ht : tableOk table = true)
    (hnz : ∃ v ∈ parseHexString ((tableGet table 780).getD []), v.getD 0 ≠ 0)
    (rs : List (List Char)) (ca ep h m : List Char)
    (h8 : rs.length = 8)
    (hpv : ∀ r ∈ rs, (∀ c ∈ r, boardChar c = true) ∧ rowWidth r = 8)
    (hca : castlingOk ca = true)
    (hepsh : ep = ['-'] ∨ ∃ fc rc, ep = [fc, rc] ∧
      fc ∈ ['a', 'b', 'c', 'd', 'e', 'f', 'g', 'h'] ∧
      rc ∈ ['1', '2', '3', '4', '5', '6', '7', '8'])
    (hh : digitsOk h = true) (hm : digitsOk m = true) :
    (∀ arr : Hash, hashSide table arr ['w'] = xorHash table arr 780 ∧
      hashSide table arr ['b'] = some arr) ∧
    hashPosition table (assembleFen (joinSep '/' rs) ['w'] ca ep h m) ≠
      hashPosition table (assembleFen (joinSep '/' rs) ['b'] ca ep h m) := by
  constructor
  · intro arr
    exact ⟨by simp [hashSide], by simp [hashSide]⟩
  obtain ⟨st1, hst1, hE, hN, hfb, hepOk⟩ :
      ∃ st1 : ParseState, parseEnPassant resetState ep = st1 ∧ st1.error = false ∧
        st1.pawnNearby = false ∧
        (ranksAdj 0 st1.enPasRank st1.enPasFile rs = true →
          0 ≤ st1.enPasFile ∧ st1.enPasFile < 8) ∧ epOk ep = true := by
    rcases hepsh with rfl | ⟨fc, rc, rfl, hfc, hrc⟩
    · refine ⟨⟨false, -1, -1, false⟩, by rw [parseEnPassant_dash]; rfl, rfl, rfl, ?_, by decide⟩
      intro hcontr
      dsimp only at hcontr
      rw [ranksAdj_false (-1) (-1) (by decide) (by decide) rs 0] at hcontr
      simp at hcontr
    · have hf0 : 0 ≤ (fc.toNat : Int) - 97 := by fin_cases hfc <;> decide
      have hf7 : (fc.toNat : Int) - 97 ≤ 7 := by fin_cases hfc <;> decide
      have hr0 : 0 ≤ (rc.toNat : Int) - 49 := by fin_cases hrc <;> decide
      have hr7 : (rc.toNat : Int) - 49 ≤ 7 := by fin_cases hrc <;> decide
      refine ⟨⟨false, (rc.toNat : Int) - 49, (fc.toNat : Int) - 97, false⟩,
        by rw [parseEnPassant_square resetState fc rc hf0 hf7 hr0 hr7]; rfl, rfl, rfl,
        fun _ => ⟨hf0, show (fc.toNat : Int) - 97 < 8 by omega⟩,
        by fin_cases hfc <;> fin_cases hrc <;> decide⟩
  obtain ⟨W1, W2, W4, hW1, hW2, hWSC, hbw4, hlw4, hWcore⟩ :=
    pipeline_core table ht rs ['w'] ca ep h m h8 hpv (Or.inl rfl) hca hepOk hh hm
      st1 hst1 hE hN hfb
  obtain ⟨B1, B2, B4, hB1, hB2, hBSC, hbb4, hlb4, hBcore⟩ :=
    pipeline_core table ht rs ['b'] ca ep h m h8 hpv (Or.inr rfl) hca hepOk hh hm
      st1 hst1 hE hN hfb
  have hWB1 : W1 = B1 := by simpa using hW1.symm.trans hB1
  rw [hWB1] at hW2
  have hWB2 : W2 = B2 := by simpa using hW2.symm.trans hB2
  rw [hWB2] at hWSC
  -- the side constant entry
  have hlen781 : table.length = 781 := by
    unfold tableOk at ht
    simp only [Bool.and_eq_true, decide_eq_true_eq] at ht
    exact ht.1
  obtain ⟨e780, hte⟩ : ∃ e, tableGet table 780 = some e := by
    cases hq : table.get? 780 with
    | none =>
      have := List.get?_eq_none.mp hq
      omega
    | some e => exact ⟨e, by simpa [tableGet] using hq⟩
  obtain ⟨he16, hehex⟩ := tableOk_entry table ht e780
    (List.get?_mem (by simpa [tableGet] using hte))
  obtain ⟨hplen, hpok⟩ := parseHex_entry e780 he16 hehex
  -- the black run leaves the castling stage alone
  have hBC : hashCastling table B2 ca = some B4 := by
    have h1 : hashSide table B2 ['b'] = some B2 := by simp [hashSide]
    rw [h1] at hBSC
    simpa using hBSC
  -- the white run XORs the side constant before castling
  have hW4 : W4 = xorArrays B4 (parseHexString e780) := by
    have h1 : hashSide table B2 ['w'] = some (xorArrays B2 (parseHexString e780)) := by
      simp [hashSide, xorHash, hte]
    rw [h1] at hWSC
    simp only [Option.some_bind] at hWSC
    have h2 : hashCastling table (xorArrays B2 (parseHexString e780)) ca =
        some (xorArrays B4 (parseHexString e780)) := by
      rw [hashCastling_xorArrays, hBC]
      rfl
    rw [h2] at hWSC
    simpa using hWSC.symm
  -- conclude
  intro heq
  unfold hashPosition at heq
  rw [hWcore, hBcore] at heq
  simp only [Option.map_some', Option.some.injEq] at heq
  have hhex : createHexString W4 = createHexString B4 := heq
  have hW4B4 : W4 = B4 := createHex_inj W4 B4 hbw4 hbb4 hhex
  rw [hW4] at hW4B4
  have hzero := xorArrays_cancel B4 (parseHexString e780) hW4B4 (by omega)
  obtain ⟨v, hv, hvne⟩ := hnz
  rw [hte] at hv
  exact hvne (hzero v (by simpa using hv))

set_option maxRecDepth 1000000 in
/-- Witness for C5 at the starting placement with both side fields, over
the demonstration table. -/
theorem claim_C5_witness :
    (tableOk demoTable = true ∧
      (∃ v ∈ parseHexString ((tableGet demoTable 780).getD []), v.getD 0 ≠ 0) ∧
      (splitOnChar '/' startPlacement).length = 8 ∧
      castlingOk ("KQkq".data) = true) ∧
    (hashSide demoTable emptyHash ['w'] = xorHash demoTable emptyHash 780 ∧
      hashSide demoTable emptyHash ['b'] = some emptyHash) ∧
    hashPosition demoTable
        (assembleFen (joinSep '/' (splitOnChar '/' startPlacement)) ['w'] ("KQkq".data)
          ['-'] ['0'] ['1']) ≠
      hashPosition demoTable
        (assembleFen (joinSep '/' (splitOnChar '/' startPlacement)) ['b'] ("KQkq".data)
          ['-'] ['0'] ['1']) :=
  ⟨⟨demoTable_ok, by decide, by decide, by decide⟩,
    (claim_C5 demoTable demoTable_ok (by decide) (splitOnChar '/' startPlacement)
      ("KQkq".data) ['-'] ['0'] ['1'] (by decide) (by decide) (by decide) (Or.inl rfl)
      (by decide) (by decide)).1 emptyHash,
    (claim_C5 demoTable demoTable_ok (by decide) (splitOnChar '/' startPlacement)
      ("KQkq".data) ['-'] ['0'] ['1'] (by decide) (by decide) (by decide) (Or.inl rfl)
      (by decide) (by decide)).2⟩

/-!
Claim C7.
-/

theorem splitOnChar_length (sep : Char) (s : List Char) :
    (splitOnChar sep s).length = s.count sep + 1 := by
  induction s with
  | nil => simp [splitOnChar]
  | cons c cs ih =>
    rw [splitOnChar_cons]
    cases h : splitOnChar sep cs with
    | nil => exact absurd h (splitOnChar_ne_nil sep cs)
    | cons g gs =>
      rw [h] at ih
      dsimp only
      by_cases hc : c = sep
      · subst hc
        rw [if_pos rfl]
        simp only [List.length_cons, List.count_cons] at ih ⊢
        simp only [beq_self_eq_true, if_true]
        omega
      · rw [if_neg hc]
        simp only [List.length_cons, List.count_cons] at ih ⊢
        have hcs : (c == sep) = false := by
          simp [hc]
        rw [hcs]
        simpa using ih

theorem validFenPattern_false_of_length (s : List Char)
    (hlen : (splitOnChar ' ' s).length ≠ 6) : validFenPattern s = false := by
  unfold validFenPattern
  split
  next p c2 c3 c4 c5 c6 heq => rw [heq] at hlen; simp at hlen
  next => rfl

theorem validFenPattern_of_split (s : List Char) (p c2 ca ep h m : List Char)
    (hsp : splitOnChar ' ' s = [p, c2, ca, ep, h, m]) :
    validFenPattern s = (boardOk p && (decide (c2 = ['w'] ∨ c2 = ['b'])) && castlingOk ca &&
      epOk ep && digitsOk h && digitsOk m) := by
  unfold validFenPattern
  rw [hsp]

/-- C7 amended: a FEN whose other five fields are valid is rejected with
the invalid-position sentinel exactly when its castling field is not a
string of one to four characters drawn from K, Q, k, q and dash;
repeated letters and mixtures with dash are accepted. -/
theorem claim_C7 (table : List (List Char)) (ht : tableOk table = true)
    (rs : List (List Char)) (col ca ep h m : List Char)
    (h8 : rs.length = 8)
    (hpv : ∀ r ∈ rs, (∀ c ∈ r, boardChar c = true) ∧ rowWidth r = 8)
    (hcol : col = ['w'] ∨ col = ['b'])
    (hepsh : ep = ['-'] ∨ ∃ fc rc, ep = [fc, rc] ∧
      fc ∈ ['a', 'b', 'c', 'd', 'e', 'f', 'g', 'h'] ∧
      rc ∈ ['1', '2', '3', '4', '5', '6', '7', '8'])
    (hh : digitsOk h = true) (hm : digitsOk m = true) :
    hashPosition table (assembleFen (joinSep '/' rs) col ca ep h m) = some wrongPosition ↔
      castlingOk ca = false := by
  obtain ⟨st1, hst1, hE, hN, hfb, hepOk⟩ :
      ∃ st1 : ParseState, parseEnPassant resetState ep = st1 ∧ st1.error = false ∧
        st1.pawnNearby = false ∧
        (ranksAdj 0 st1.enPasRank st1.enPasFile rs = true →
          0 ≤ st1.enPasFile ∧ st1.enPasFile < 8) ∧ epOk ep = true := by
    rcases hepsh with rfl | ⟨fc, rc, rfl, hfc, hrc⟩
    · refine ⟨⟨false, -1, -1, false⟩, by rw [parseEnPassant_dash]; rfl, rfl, rfl, ?_, by decide⟩
      intro hcontr
      dsimp only at hcontr
      rw [ranksAdj_false (-1) (-1) (by decide) (by decide) rs 0] at hcontr
      simp at hcontr
    · have hf0 : 0 ≤ (fc.toNat : Int) - 97 := by fin_cases hfc <;> decide
      have hf7 : (fc.toNat : Int) - 97 ≤ 7 := by fin_cases hfc <;> decide
      have hr0 : 0 ≤ (rc.toNat : Int) - 49 := by fin_cases hrc <;> decide
      have hr7 : (rc.toNat : Int) - 49 ≤ 7 := by fin_cases hrc <;> decide
      refine ⟨⟨false, (rc.toNat : Int) - 49, (fc.toNat : Int) - 97, false⟩,
        by rw [parseEnPassant_square resetState fc rc hf0 hf7 hr0 hr7]; rfl, rfl, rfl,
        fun _ => ⟨hf0, show (fc.toNat : Int) - 97 < 8 by omega⟩,
        by fin_cases hfc <;> fin_cases hrc <;> decide⟩
  constructor
  · intro hsent
    cases hcb : castlingOk ca with
    | false => rfl
    | true =>
      exfalso
      obtain ⟨H1, H2, H4, hH1, hH2, hSC, hb4, hl4, hcore⟩ :=
        pipeline_core table ht rs col ca ep h m h8 hpv hcol hcb hepOk hh hm st1 hst1 hE hN hfb
      unfold hashPosition at hsent
      rw [hcore] at hsent
      simp only [Option.map_some', Option.some.injEq] at hsent
      have hlen := congrArg List.length hsent
      rw [createHex_length H4 hb4, hl4] at hlen
      simp [wrongPosition] at hlen
  · intro hcf
    have hpat : validFenPattern (assembleFen (joinSep '/' rs) col ca ep h m) = false := by
      by_cases hsp : ' ' ∈ ca
      · apply validFenPattern_false_of_length
        rw [splitOnChar_length]
        have hc1 : ca.count ' ' ≠ 0 := fun h0 => (List.count_eq_zero.mp h0) hsp
        have hcnt : (assembleFen (joinSep '/' rs) col ca ep h m).count ' ' =
            (joinSep '/' rs).count ' ' + col.count ' ' + ca.count ' ' + ep.count ' ' +
              h.count ' ' + m.count ' ' + 5 := by
          unfold assembleFen
          simp [List.count_append, List.count_cons]
          omega
        omega
      · have hepOk2 := hepOk
        unfold epOk at hepOk2
        simp only [Bool.and_eq_true, decide_eq_true_eq, List.all_eq_true] at hepOk2
        have hhOk := hh
        unfold digitsOk at hhOk
        simp only [Bool.and_eq_true, List.all_eq_true, Bool.not_eq_true',
          List.isEmpty_eq_false] at hhOk
        have hmOk := hm
        unfold digitsOk at hmOk
        simp only [Bool.and_eq_true, List.all_eq_true, Bool.not_eq_true',
          List.isEmpty_eq_false] at hmOk
        have hpsp : ' ' ∉ joinSep '/' rs := by
          intro hmem
          rcases mem_joinSep '/' rs ' ' hmem with hc | ⟨r, hr, hcr⟩
          · simp at hc
          · have := (hpv r hr).1 ' ' hcr
            simp [boardChar] at this
        have hcolsp : ' ' ∉ col := by
          rcases hcol with rfl | rfl <;> simp
        have hepsp : ' ' ∉ ep := notMem_of_class epChar ep hepOk2.2 ' ' (by decide)
        have hhsp : ' ' ∉ h := notMem_of_class decDigit h hhOk.2 ' ' (by decide)
        have hmsp : ' ' ∉ m := notMem_of_class decDigit m hmOk.2 ' ' (by decide)
        rw [validFenPattern_of_split _ _ _ _ _ _ _
          (splitOnChar_assembleFen _ _ _ _ _ _ hpsp hcolsp hsp hepsp hhsp hmsp)]
        simp [hcf]
    unfold hashPosition hashPositionCore
    rw [hpat]
    rfl

/-- Witness for C7: the castling field KK with every other field valid
is accepted, over the demonstration table. -/
theorem claim_C7_witness :
    (tableOk demoTable = true ∧ (splitOnChar '/' startPlacement).length = 8 ∧
      digitsOk ['0'] = true ∧ digitsOk ['1'] = true) ∧
    (hashPosition demoTable
        (assembleFen (joinSep '/' (splitOnChar '/' startPlacement)) ['w'] ("KK".data)
          ['-'] ['0'] ['1']) = some wrongPosition ↔
      castlingOk ("KK".data) = false) :=
  ⟨⟨demoTable_ok, by decide, by decide, by decide⟩,
    claim_C7 demoTable demoTable_ok (splitOnChar '/' startPlacement) ['w'] ("KK".data)
      ['-'] ['0'] ['1'] (by decide) (by decide) (Or.inl rfl) (Or.inl rfl)
      (by decide) (by decide)⟩

set_option maxRecDepth 1000000 in
/-- Counterexample to C7 as stated: the castling field KK with a
repeated letter passes the validator and produces a hash, instead of
being rejected with the invalid-position sentinel. -/
theorem claim_C7_counterexample :
    validFenPattern ("rnbqkbnr/pppppppp/8/8/8/8/PPPPPPPP/RNBQKBNR w KK - 0 1".data) = true ∧
    hashPosition demoTable
        ("rnbqkbnr/pppppppp/8/8/8/8/PPPPPPPP/RNBQKBNR w KK - 0 1".data) ≠
      some wrongPosition ∧
    hashPosition demoTable
        ("rnbqkbnr/pppppppp/8/8/8/8/PPPPPPPP/RNBQKBNR w KK - 0 1".data) ≠ none :=
  ⟨by decide, by decide, by decide⟩

/-!
Claim C8.
-/

theorem pawnAdjAt_cases (c : Char) (rank file : Nat) (epR epF : Int)
    (h : pawnAdjAt c rank file epR epF = true) :
    (c = 'p' ∧ epR = 2) ∨ (c = 'P' ∧ epR = 5) := by
  unfold pawnAdjAt at h
  simp only [Bool.or_eq_true, Bool.and_eq_true, decide_eq_true_eq] at h
  rcases h with ⟨⟨⟨hc1, hr1⟩, -⟩, -⟩ | ⟨⟨⟨hc1, hr1⟩, -⟩, -⟩
  · exact Or.inl ⟨hc1, hr1⟩
  · exact Or.inr ⟨hc1, hr1⟩

/-- C8 amended: the en-passant adjacency flag never depends on the
side-to-move field, and when it is set the adjacent pawn is black
exactly for a declared rank-2 target and white exactly for a declared
rank-5 target, regardless of which side is to move. -/
theorem claim_C8_amended (table : List (List Char)) (ht : tableOk table = true)
    (rs : List (List Char)) (ca h m : List Char) (fc rc : Char)
    (h8 : rs.length = 8)
    (hpv : ∀ r ∈ rs, (∀ c ∈ r, boardChar c = true) ∧ rowWidth r = 8)
    (hca : castlingOk ca = true)
    (hfc : fc ∈ ['a', 'b', 'c', 'd', 'e', 'f', 'g', 'h'])
    (hrc : rc ∈ ['1', '2', '3', '4', '5', '6', '7', '8'])
    (hh : digitsOk h = true) (hm : digitsOk m = true)
    (col1 col2 : List Char)
    (hcol1 : col1 = ['w'] ∨ col1 = ['b']) (hcol2 : col2 = ['w'] ∨ col2 = ['b']) :
    ((hashPositionCore table (assembleFen (joinSep '/' rs) col1 ca [fc, rc] h m)).map
        (fun x => x.2.pawnNearby) =
      (hashPositionCore table (assembleFen (joinSep '/' rs) col2 ca [fc, rc] h m)).map
        (fun x => x.2.pawnNearby)) ∧
    (∀ res st2,
      hashPositionCore table (assembleFen (joinSep '/' rs) col1 ca [fc, rc] h m) =
        some (res, st2) →
      st2.pawnNearby = true →
      ((rc.toNat : Int) - 49 = 2 ∧ ∃ sq ∈ fenSquares (joinSep '/' rs), sq.1 = 'p' ∧
        pawnAdjAt sq.1 sq.2.1 sq.2.2 ((rc.toNat : Int) - 49) ((fc.toNat : Int) - 97) = true) ∨
      ((rc.toNat : Int) - 49 = 5 ∧ ∃ sq ∈ fenSquares (joinSep '/' rs), sq.1 = 'P' ∧
        pawnAdjAt sq.1 sq.2.1 sq.2.2 ((rc.toNat : Int) - 49) ((fc.toNat : Int) - 97) = true)) := by
  have hf0 : 0 ≤ (fc.toNat : Int) - 97 := by fin_cases hfc <;> decide
  have hf7 : (fc.toNat : Int) - 97 ≤ 7 := by fin_cases hfc <;> decide
  have hr0 : 0 ≤ (rc.toNat : Int) - 49 := by fin_cases hrc <;> decide
  have hr7 : (rc.toNat : Int) - 49 ≤ 7 := by fin_cases hrc <;> decide
  have hepOkSq : epOk [fc, rc] = true := by
    fin_cases hfc <;> fin_cases hrc <;> decide
  have hchars : ∀ r ∈ rs, ∀ c ∈ r, boardChar c = true := fun r hr => (hpv r hr).1
  have hadj_eq : ranksAdj 0 ((rc.toNat : Int) - 49) ((fc.toNat : Int) - 97) rs =
      epAdjacent (joinSep '/' rs) ((rc.toNat : Int) - 49) ((fc.toNat : Int) - 97) := by
    unfold epAdjacent fenSquares
    rw [joinSep_split '/' rs (by rintro rfl; simp at h8)
      (fun r hr => notMem_of_class boardChar r (hchars r hr) '/' (by decide))]
    exact ranksAdj_any _ _ rs 0 hchars
  have hsq : parseEnPassant resetState [fc, rc] =
      (⟨false, (rc.toNat : Int) - 49, (fc.toNat : Int) - 97, false⟩ : ParseState) := by
    rw [parseEnPassant_square resetState fc rc hf0 hf7 hr0 hr7]
    rfl
  obtain ⟨A1, A2, A4, hA1, hA2, hASC, hba4, hla4, hAcore⟩ :=
    pipeline_core table ht rs col1 ca [fc, rc] h m h8 hpv hcol1 hca hepOkSq hh hm
      ⟨false, (rc.toNat : Int) - 49, (fc.toNat : Int) - 97, false⟩ hsq rfl rfl
      (fun _ => ⟨hf0, show (fc.toNat : Int) - 97 < 8 by omega⟩)
  obtain ⟨B1, B2, B4, hB1, hB2, hBSC, hbb4, hlb4, hBcore⟩ :=
    pipeline_core table ht rs col2 ca [fc, rc] h m h8 hpv hcol2 hca hepOkSq hh hm
      ⟨false, (rc.toNat : Int) - 49, (fc.toNat : Int) - 97, false⟩ hsq rfl rfl
      (fun _ => ⟨hf0, show (fc.toNat : Int) - 97 < 8 by omega⟩)
  dsimp only at hAcore hBcore
  constructor
  · rw [hAcore, hBcore]
    rfl
  · intro res st2 hcore hnear
    rw [hAcore] at hcore
    simp only [Option.some.injEq, Prod.mk.injEq] at hcore
    have hst2 := hcore.2
    rw [← hst2] at hnear
    dsimp only at hnear
    have hadj : epAdjacent (joinSep '/' rs) ((rc.toNat : Int) - 49) ((fc.toNat : Int) - 97) =
        true := by
      rw [← hadj_eq]
      exact hnear
    unfold epAdjacent at hadj
    rw [List.any_eq_true] at hadj
    obtain ⟨sq, hsqmem, hsqadj⟩ := hadj
    rcases pawnAdjAt_cases sq.1 sq.2.1 sq.2.2 _ _ hsqadj with ⟨hcp, hrp⟩ | ⟨hcp, hrp⟩
    · exact Or.inl ⟨hrp, sq, hsqmem, hcp, hsqadj⟩
    · exact Or.inr ⟨hrp, sq, hsqmem, hcp, hsqadj⟩

set_option maxRecDepth 1000000 in
/-- Counterexample to C8 as stated: with white to move and en-passant
target e6, the adjacency flag is set by the white pawn on d5 (the side
to move), and no black pawn (the side not to move) sits on a capturing
square, yet the en-passant constant is applied. -/
theorem claim_C8_counterexample :
    ((hashPositionCore demoTable
        ("rnbqkbnr/pppp1ppp/8/3Pp3/8/8/PPP1PPPP/RNBQKBNR w KQkq e6 0 3".data)).map
      (fun x => x.2.pawnNearby) = some true) ∧
    (splitOnChar ' '
        ("rnbqkbnr/pppp1ppp/8/3Pp3/8/8/PPP1PPPP/RNBQKBNR w KQkq e6 0 3".data)).get? 1 =
      some ['w'] ∧
    ¬∃ sq ∈ fenSquares ("rnbqkbnr/pppp1ppp/8/3Pp3/8/8/PPP1PPPP/RNBQKBNR".data),
      sq.1 = 'p' ∧ pawnAdjAt sq.1 sq.2.1 sq.2.2 5 4 = true :=
  ⟨by decide, by decide, by decide⟩

set_option maxRecDepth 1000000 in
/-- Witness for C8 amended at the position with a white pawn on d5 and
en-passant target e6, over the demonstration table. -/
theorem claim_C8_amended_witness :
    (tableOk demoTable = true ∧ c8Rows.length = 8 ∧
      (∀ r ∈ c8Rows, (∀ c ∈ r, boardChar c = true) ∧ rowWidth r = 8) ∧
      castlingOk ("KQkq".data) = true) ∧
    (((hashPositionCore demoTable
        (assembleFen (joinSep '/' c8Rows) ['w'] ("KQkq".data) ['e', '6'] ['0'] ['3'])).map
          (fun x => x.2.pawnNearby) =
      (hashPositionCore demoTable
        (assembleFen (joinSep '/' c8Rows) ['b'] ("KQkq".data) ['e', '6'] ['0'] ['3'])).map
          (fun x => x.2.pawnNearby)) ∧
    (∀ res st2,
      hashPositionCore demoTable
          (assembleFen (joinSep '/' c8Rows) ['w'] ("KQkq".data) ['e', '6'] ['0'] ['3']) =
        some (res, st2) →
      st2.pawnNearby = true →
      ((('6').toNat : Int) - 49 = 2 ∧ ∃ sq ∈ fenSquares (joinSep '/' c8Rows), sq.1 = 'p' ∧
        pawnAdjAt sq.1 sq.2.1 sq.2.2 ((('6').toNat : Int) - 49) ((('e').toNat : Int) - 97) = true) ∨
      ((('6').toNat : Int) - 49 = 5 ∧ ∃ sq ∈ fenSquares (joinSep '/' c8Rows), sq.1 = 'P' ∧
        pawnAdjAt sq.1 sq.2.1 sq.2.2 ((('6').toNat : Int) - 49) ((('e').toNat : Int) - 97) = true))) :=
  ⟨⟨demoTable_ok, by decide, by decide, by decide⟩,
    claim_C8_amended demoTable demoTable_ok c8Rows ("KQkq".data) ['0'] ['3'] 'e' '6'
      (by decide) (by decide) (by decide) (by decide) (by decide) (by decide) (by decide)
      ['w'] ['b'] (Or.inl rfl) (Or.inr rfl)⟩

/-!
Claim C9.
-/

theorem hashRankChars_append_bad (table : List (List Char)) (rank : Nat) (c : Char)
    (hbad : charClass c = CharClass.bad) :
    ∀ (pre : List Char), (∀ ch ∈ pre, charClass ch ≠ CharClass.bad) →
    ∀ (st : ParseState) (arr : Hash) (file : Nat) (suf : List Char),
    hashRankChars table rank st arr file (pre ++ c :: suf) =
      (hashRankChars table rank st arr file pre).bind (fun rr =>
        match rr with
        | RankRes.done st2 arr2 _ => some (RankRes.abort { st2 with error := true } arr2)
        | RankRes.abort st2 arr2 => some (RankRes.abort st2 arr2)) := by
  intro pre
  induction pre with
  | nil =>
    intro _ st arr file suf
    simp [hashRankChars, hbad]
  | cons p ps ih =>
    intro hpre st arr file suf
    cases hcc : charClass p with
    | piece k =>
      simp only [List.cons_append, hashRankChars, hcc]
      cases hx : xorHash table arr (((64 * k + 8 * rank + file : Nat) : Int)) with
      | none => simp
      | some arr2 =>
        exact ih (fun ch hch => hpre ch (by simp [hch])) _ arr2 (file + 1) suf
    | digit d =>
      simp only [List.cons_append, hashRankChars, hcc]
      exact ih (fun ch hch => hpre ch (by simp [hch])) st arr (file + d) suf
    | bad => exact absurd hcc (hpre p (by simp))

/-- C9 amended: when the decoder meets an unrecognized character it sets
the error flag and stops at once -- nothing after that character, in the
same rank or in later ranks, is processed -- and it returns the
accumulator as of the abort point, that is the input accumulator
combined with the constants of the pieces already scanned, not
necessarily the input accumulator itself. -/
theorem claim_C9_amended (table : List (List Char)) (c : Char)
    (hbad : charClass c = CharClass.bad) :
    ∀ (rs1 : List (List Char)), (∀ r ∈ rs1, ∀ ch ∈ r, charClass ch ≠ CharClass.bad) →
    ∀ (pre : List Char), (∀ ch ∈ pre, charClass ch ≠ CharClass.bad) →
    ∀ (i : Nat) (st : ParseState) (arr : Hash) (suf : List Char) (rs2 : List (List Char)),
    hashRanks table i st arr (rs1 ++ (pre ++ c :: suf) :: rs2) =
      (hashRanks table i st arr rs1).bind (fun x =>
        (hashRankChars table (7 - (i + rs1.length)) x.1 x.2 0 pre).bind (fun rr =>
          match rr with
          | RankRes.done st2 arr2 _ => some ({ st2 with error := true }, arr2)
          | RankRes.abort st2 arr2 => some (st2, arr2))) := by
  intro rs1
  induction rs1 with
  | nil =>
    intro _ pre hpre i st arr suf rs2
    simp only [List.nil_append, List.length_nil, Nat.add_zero, hashRanks, Option.some_bind]
    rw [hashRankChars_append_bad table (7 - i) c hbad pre hpre st arr 0 suf]
    cases hpc : hashRankChars table (7 - i) st arr 0 pre with
    | none => simp
    | some rr =>
      cases rr with
      | done st2 arr2 f => simp
      | abort st2 arr2 => simp
  | cons r rs1 ih =>
    intro hrs1 pre hpre i st arr suf rs2
    have hrclean : ∀ ch ∈ r, charClass ch ≠ CharClass.bad := hrs1 r (by simp)
    simp only [List.cons_append, hashRanks]
    rw [hashRankChars_eq]
    cases hrp : rowPure table (7 - i) 0 arr r with
    | none => simp
    | some x =>
      obtain ⟨ab, a, f⟩ := x
      cases ab with
      | true =>
        exfalso
        have hb := (rowPure_hasBad table (7 - i) 0 arr r true a f hrp).symm
        unfold rowHasBad at hb
        rw [List.any_eq_true] at hb
        obtain ⟨ch, hch, hchb⟩ := hb
        exact hrclean ch hch (by simpa using hchb)
      | false =>
        simp only [Option.map_some']
        simp only [List.append_eq]
        rw [ih (fun x hx => hrs1 x (by simp [hx])) pre hpre (i + 1) _ a suf rs2]
        have harith : i + 1 + rs1.length = i + (r :: rs1).length := by
          simp only [List.length_cons]
          omega
        rw [harith]

set_option maxRecDepth 1000000 in
/-- Counterexample to C9 as stated: on the rank string pX6 the decoder
meets X after having hashed the pawn, sets the error flag and aborts,
but the returned accumulator is the pawn-updated hash, not the
accumulator hashPieces received. -/
theorem claim_C9_counterexample :
    (hashPieces demoTable resetState emptyHash
        ("pX6/8/8/8/8/8/8/8".data)).map (fun x => x.2) ≠ some emptyHash ∧
    (hashPieces demoTable resetState emptyHash
        ("pX6/8/8/8/8/8/8/8".data)).map (fun x => x.1.error) = some true :=
  ⟨by decide, by decide⟩

set_option maxRecDepth 1000000 in
/-- Witness for C9 amended on a concrete rank list with the unrecognized
character X, over the demonstration table. -/
theorem claim_C9_amended_witness :
    (charClass 'X' = CharClass.bad ∧
      (∀ r ∈ [['8']], ∀ ch ∈ r, charClass ch ≠ CharClass.bad) ∧
      (∀ ch ∈ ['p'], charClass ch ≠ CharClass.bad)) ∧
    hashRanks demoTable 0 resetState emptyHash ([['8']] ++ (['p'] ++ 'X' :: ['6']) :: [['8']]) =
      (hashRanks demoTable 0 resetState emptyHash [['8']]).bind (fun x =>
        (hashRankChars demoTable (7 - (0 + [['8']].length)) x.1 x.2 0 ['p']).bind (fun rr =>
          match rr with
          | RankRes.done st2 arr2 _ => some ({ st2 with error := true }, arr2)
          | RankRes.abort st2 arr2 => some (st2, arr2))) :=
  ⟨⟨by decide, by decide, by decide⟩,
    claim_C9_amended demoTable 'X' (by decide) [['8']] (by decide) ['p'] (by decide)
      0 resetState emptyHash ['6'] [['8']]⟩

/-!
Claim C6.
-/

/-- C6: hashPosition resets the four per-call fields on entry, so a call
on a live instance neither reads the fields earlier calls left behind
nor returns anything but the pure function of its own FEN string, and a
sequence of calls on one shared instance returns exactly the map of that
pure function. -/
theorem claim_C6 (table : List (List Char)) (st1 st2 : ParseState) (fen : List Char)
    (fens : List (List Char)) :
    instanceCall table st1 fen = instanceCall table st2 fen ∧
    (instanceCall table st1 fen).1 = hashPosition table fen ∧
    runCalls table st1 fens = fens.map (hashPosition table) := by
  have hfst : ∀ (st : ParseState) (f : List Char),
      (instanceCall table st f).1 = hashPosition table f := by
    intro st f
    unfold instanceCall hashPosition
    cases hashPositionCore table f with
    | none => rfl
    | some x => rfl
  refine ⟨rfl, hfst st1 fen, ?_⟩
  induction fens generalizing st1 with
  | nil => rfl
  | cons f fs ih =>
    simp only [runCalls, List.map_cons]
    rw [hfst st1 f, ih]

/-!
Claims C2, C4 and C10: the out-of-range constant-table read.
-/

set_option maxRecDepth 1000000 in
/-- C2 is violated by the code: on this syntactically accepted FEN the
rank scan reaches file 32 and demands constant index 792 of the
781-entry table, so the JS code throws a TypeError on
undefined.length instead of returning a value; the model returns no
result, although the table is exactly as the specification demands. -/
theorem claim_C2_bug :
    tableOk demoTable = true ∧
    hashPosition demoTable ("8888K/8/8/8/8/8/8/8 w - - 0 1".data) = none :=
  ⟨demoTable_ok, by decide⟩

set_option maxRecDepth 1000000 in
/-- C4 is violated by the code: this FEN has a rank group summing to 25
files, which the claim says must produce the sentinel, but the scan
reads constant index 784 out of range and the call throws instead of
returning the sentinel. -/
theorem claim_C4_bug :
    rowWidth ("888K".data) = 25 ∧
    hashPosition demoTable ("888K/8/8/8/8/8/8/8 w - - 0 1".data) = none :=
  ⟨by decide, by decide⟩

set_option maxRecDepth 1000000 in
/-- C10 is violated by the code: with the 781-entry table this accepted
FEN makes the piece branch compute index 64 * 11 + 8 * 7 + 40 = 800,
beyond 780, and the out-of-range read aborts the call. -/
theorem claim_C10_bug :
    demoTable.length = 781 ∧
    hashPosition demoTable ("88888K/8/8/8/8/8/8/8 w - - 0 1".data) = none :=
  ⟨by simp [demoTable], by decide⟩

end ChessZobrist
